import Mathlib

/-!
# terraform-provider-incus: `internal/utils` and `internal/acctest`

A shallow embedding of the helper functions of `internal/utils/utils.go` and of
`testProvider` of `internal/acctest/provider_factory.go`, and theorems about them.

Conventions of the embedding.

* A Go slice `[]T` is a `List T`; the `nil` slice and the empty slice are both `[]`
  (the code never distinguishes them).
* A Go `string` is a sequence of bytes, `GoString`.
* A Go map is a `GoMap`: finitely many entries with pairwise distinct keys.  The
  language leaves the order of a `range` loop over a map unspecified; a `RangeOrder`
  is the order the runtime happens to pick, and every function that ranges over a map
  takes one as a parameter, so that a theorem holds for every order.
* The operator `==` of a comparable type is a parameter, `Comparable`: it may panic and
  need not be reflexive (`float64` NaN).  `ValueInSlice` and `DiffSlicesCmp` take it;
  `DiffSlices` is the function on elements for which `==` is equality of values.
* A `time.Duration` and an instant are integer counts of nanoseconds.  A `float64` is
  the rational number it stands for, and every conversion and operation rounds the exact
  result to the nearest `float64` (`toFloat64`).
* `testProvider` works on an explicit memory (the two package variables and the
  allocator) and reports what it did as a list of effects; the environment, the
  configuration loader and the constructor of the provider configuration are parameters
  of each call.
* The version library `github.com/hashicorp/go-version` is a parameter of
  `CheckVersion`; `specLib` is the library as the spec describes it.
-/

namespace Incus

/-! ## Go maps -/

/-- A Go map with keys `K` and values `V`: a finite list of entries, no key twice. -/
structure GoMap (K V : Type) where
  entries : List (K × V)
  nodupKeys : (entries.map Prod.fst).Nodup

/-- The order in which one `range` loop visits the keys of a map: some rearrangement
of the stored keys, chosen by the runtime. -/
structure RangeOrder (K : Type) where
  visit : List K → List K
  visit_perm : ∀ l, (visit l).Perm l

/-- The range order that visits the keys as stored. -/
def RangeOrder.stored (K : Type) : RangeOrder K := ⟨id, fun l => List.Perm.refl l⟩

/-- The range order that visits the keys in reverse. -/
def RangeOrder.reversed (K : Type) : RangeOrder K := ⟨List.reverse, List.reverse_perm⟩

namespace GoMap

variable {K V : Type}

/-- The expression `make(map[K]V, n)`: the empty map (the capacity hint is not observable). -/
def make : GoMap K V := ⟨[], List.nodup_nil⟩

/-- The keys of a map, as stored. -/
def keys (m : GoMap K V) : List K := m.entries.map Prod.fst

/-- The expression `len(m)`. -/
def len (m : GoMap K V) : Nat := m.entries.length

/-- Writing `k ↦ v` into a list of entries: the entry of `k` is overwritten when there
is one, and a new entry is added otherwise. -/
def store [DecidableEq K] (k : K) (v : V) : List (K × V) → List (K × V)
  | [] => [(k, v)]
  | e :: rest => if e.1 = k then (k, v) :: rest else e :: store k v rest

/-- The statement `m[k] = v`. -/
def set [DecidableEq K] (m : GoMap K V) (k : K) (v : V) : GoMap K V :=
  ⟨store k v m.entries, by
    have mem : ∀ (l : List (K × V)) (x : K),
        x ∈ (store k v l).map Prod.fst → x = k ∨ x ∈ l.map Prod.fst := by
      intro l
      induction l with
      | nil => intro x hx; simpa [store] using hx
      | cons e rest ih =>
        intro x hx
        by_cases he : e.1 = k
        · simp only [store, he, if_true, List.map_cons, List.mem_cons] at hx
          rcases hx with hx | hx
          · exact Or.inl hx
          · exact Or.inr (by simp only [List.map_cons, List.mem_cons]; exact Or.inr hx)
        · simp only [store, he, if_false, List.map_cons, List.mem_cons] at hx
          rcases hx with hx | hx
          · exact Or.inr (by simp only [List.map_cons, List.mem_cons]; exact Or.inl hx)
          · rcases ih x hx with h | h
            · exact Or.inl h
            · exact Or.inr (by simp only [List.map_cons, List.mem_cons]; exact Or.inr h)
    have key : ∀ l : List (K × V), (l.map Prod.fst).Nodup →
        ((store k v l).map Prod.fst).Nodup := by
      intro l
      induction l with
      | nil => intro _; simp [store]
      | cons e rest ih =>
        intro hnd
        rw [List.map_cons, List.nodup_cons] at hnd
        by_cases he : e.1 = k
        · simp only [store, he, if_true, List.map_cons, List.nodup_cons]
          exact ⟨he ▸ hnd.1, hnd.2⟩
        · simp only [store, he, if_false, List.map_cons, List.nodup_cons]
          refine ⟨fun hx => ?_, ih hnd.2⟩
          rcases mem rest e.1 hx with h | h
          · exact he h
          · exact hnd.1 h
    exact key _ m.nodupKeys⟩

/-- The expression `m[k]`: the stored value, or the zero value of `V` when `k` has no
entry. -/
def index [DecidableEq K] (m : GoMap K V) (zero : V) (k : K) : V :=
  match m.entries.find? (fun e => decide (e.1 = k)) with
  | some e => e.2
  | none => zero

/-- The keys of a map in the order one `range` loop visits them. -/
def range (ord : RangeOrder K) (m : GoMap K V) : List K := ord.visit m.keys

end GoMap

/-! ## DiffSlices -/

/-- The function `DiffSlices` of `utils.go`, on elements for which `==` is equality of
values (strings, integers); `DiffSlicesCmp` below is the function for an arbitrary
comparable type.  `mapA` and `mapB` record the elements of
the two slices; the first loop ranges over `mapA` and appends to `removed` every key
`k` with `mapB[k]` true, the second ranges over `mapB` and appends to `added` every key
`k` with `mapA[k]` true. -/
def DiffSlices {T : Type} [DecidableEq T] (ordA ordB : RangeOrder T)
    (sliceA sliceB : List T) : List T × List T :=
  let mapA : GoMap T Bool := sliceA.foldl (fun m k => m.set k true) GoMap.make
  let mapB : GoMap T Bool := sliceB.foldl (fun m k => m.set k true) GoMap.make
  let removed : List T :=
    (mapA.range ordA).foldl
      (fun removed k => if mapB.index false k then removed ++ [k] else removed) []
  let added : List T :=
    (mapB.range ordB).foldl
      (fun added k => if mapA.index false k then added ++ [k] else added) []
  (removed, added)

/-! ## Strings -/

/-- A byte. -/
abbrev Byte := Fin 256

/-- A Go string: a sequence of bytes (not necessarily valid UTF-8). -/
abbrev GoString := List Byte

/-- The bytes of a string literal of the source.  Every literal this is applied to is
ASCII, where a character is one byte, its code. -/
def ascii (s : String) : GoString := s.toList.map (fun c => Fin.ofNat c.toNat)

/-- The operator `<` on Go strings: byte-wise lexicographic comparison, a proper prefix
being less than the longer string. -/
def stringLess : GoString → GoString → Bool
  | [], [] => false
  | [], _ :: _ => true
  | _ :: _, [] => false
  | a :: as, b :: bs => if a < b then true else if b < a then false else stringLess as bs

/-- The standard library's `strings.HasPrefix(s, prefix)`, which is
`len(s) >= len(prefix) && s[:len(prefix)] == prefix`. -/
def HasPrefix (s pre : GoString) : Bool :=
  decide (s.length ≥ pre.length) && decide (s.take pre.length = pre)

/-- The standard library's `sort.Strings`: sorts a slice of strings in increasing order
of `<`.  Distinct strings are never equivalent under `<`, so the sorted arrangement of a
slice is unique and every correct sorting algorithm returns it; it is computed here by
insertion. -/
def sortStrings (keys : List GoString) : List GoString :=
  keys.insertionSort (fun a b => stringLess b a = false)

/-! ## The operator `==` -/

/-- The operator `==` of a Go type that satisfies `comparable`.  `eq a b` is the result
of `a == b`, and `none` when the comparison panics, which it does for two interface
values of the same dynamic type when that type is not comparable (a slice, a map, a
function).  The operator need not be reflexive: a floating-point NaN is not equal to
itself. -/
structure Comparable (T : Type) where
  eq : T → T → Option Bool

/-- Whether `a == b` evaluates to `true`. -/
def Comparable.same {T : Type} (cmp : Comparable T) (a b : T) : Bool :=
  decide (cmp.eq a b = some true)

/-- The operator `==` of a type on which it is equality of values and never panics:
strings, integers, booleans. -/
def Comparable.exact (T : Type) [DecidableEq T] : Comparable T :=
  ⟨fun a b => some (decide (a = b))⟩

/-- A `float64` value: a number (`number 0` is the positive zero), the negative zero, an
infinity, or a NaN. -/
inductive Float64Value where
  | number (x : ℚ)
  | negativeZero
  | infinity (negative : Bool)
  | nan
  deriving DecidableEq

/-- The operator `==` on `float64`: numbers are compared as numbers, the two zeros are
equal, an infinity is equal to the infinity of the same sign, and a NaN is equal to
nothing, itself included. -/
def Comparable.float64 : Comparable Float64Value :=
  ⟨fun a b =>
    match a, b with
    | .number x, .number y => some (decide (x = y))
    | .number x, .negativeZero => some (decide (x = 0))
    | .negativeZero, .number y => some (decide (y = 0))
    | .negativeZero, .negativeZero => some true
    | .infinity m, .infinity n => some (decide (m = n))
    | _, _ => some false⟩

/-! ## DiffSlices on an arbitrary comparable type -/

/-- The statement `m[k] = v` on the entries of a map whose keys are compared with
`same`: the entry of a key equal to `k` is overwritten, key included, when there is one,
and a new entry is added otherwise.  A key that is not equal to itself (a NaN) is never
found, so that every write of it adds an entry. -/
def GoMap.storeWith {K V : Type} (same : K → K → Bool) (k : K) (v : V) :
    List (K × V) → List (K × V)
  | [] => [(k, v)]
  | e :: rest => if same e.1 k then (k, v) :: rest else e :: GoMap.storeWith same k v rest

/-- The expression `m[k]` on the entries of a map whose keys are compared with `same`:
the value stored under a key equal to `k`, or the zero value. -/
def GoMap.indexWith {K V : Type} (same : K → K → Bool) (entries : List (K × V)) (zero : V)
    (k : K) : V :=
  match entries.find? (fun e => same e.1 k) with
  | some e => e.2
  | none => zero

/-- The loop `for _, k := range slice { m[k] = true }` of `DiffSlices`, on the entries
of `m`.  Writing a key that cannot be hashed panics (`none`): that is a key for which
`k == k` panics, an interface value of a dynamic type that is not comparable. -/
def recordAll {T : Type} (cmp : Comparable T) : List T → List (T × Bool) → Option (List (T × Bool))
  | [], m => some m
  | k :: rest, m =>
    match cmp.eq k k with
    | none => none
    | some _ => recordAll cmp rest (GoMap.storeWith cmp.same k true m)

/-- The function `DiffSlices` of `utils.go` for an arbitrary comparable type, with the
operator `==` given by `cmp`; the result is `none` when the function panics.
`DiffSlices` above is this function on slices on whose elements `==` is equality of
values (`DiffSlicesCmp_eq_DiffSlices`). -/
def DiffSlicesCmp {T : Type} (cmp : Comparable T) (ordA ordB : RangeOrder T)
    (sliceA sliceB : List T) : Option (List T × List T) :=
  match recordAll cmp sliceA [] with
  | none => none
  | some mapA =>
    match recordAll cmp sliceB [] with
    | none => none
    | some mapB =>
      let removed : List T :=
        (ordA.visit (mapA.map Prod.fst)).foldl
          (fun removed k =>
            if GoMap.indexWith cmp.same mapB false k then removed ++ [k] else removed) []
      let added : List T :=
        (ordB.visit (mapB.map Prod.fst)).foldl
          (fun added k =>
            if GoMap.indexWith cmp.same mapA false k then added ++ [k] else added) []
      some (removed, added)

/-! ## HasAnyPrefix, ValueInSlice, SortMapKeys -/

/-- The function `HasAnyPrefix` of `utils.go`: the loop returns `true` at the first
element of `prefixes` that `value` starts with, and `false` after the last one. -/
def HasAnyPrefix (value : GoString) : List GoString → Bool
  | [] => false
  | p :: rest => if HasPrefix value p then true else HasAnyPrefix value rest

/-- The function `ValueInSlice` of `utils.go`, for a comparable type with the operator
`==` given by `cmp`: the loop compares each element with `value`, `v == value`, returns
`true` at the first element that is equal, and `false` after the last one.  The result
is `none` when a comparison panics. -/
def ValueInSlice {T : Type} (cmp : Comparable T) (value : T) : List T → Option Bool
  | [] => some false
  | v :: rest =>
    match cmp.eq v value with
    | none => none
    | some true => some true
    | some false => ValueInSlice cmp value rest

/-- The function `SortMapKeys` of `utils.go`: the keys of `m` are appended to `keys` in
the order the `range` loop visits them, and `keys` is sorted with `sort.Strings`. -/
def SortMapKeys {T : Type} (ord : RangeOrder GoString) (m : GoMap GoString T) : List GoString :=
  let keys : List GoString := (m.range ord).foldl (fun keys key => keys ++ [key]) []
  sortStrings keys

/-! ## CheckVersion -/

/-- The part of `github.com/hashicorp/go-version` that `CheckVersion` calls.  The
library is not part of this repository and is a parameter of the model.  A call that
returns a non-nil `error` is `Except.error` with the text of the error (`err.Error()`),
a call that returns a nil `error` is `Except.ok` with the value. -/
structure VersionLib where
  Version : Type
  Constraints : Type
  NewVersion : GoString → Except GoString Version
  NewConstraint : GoString → Except GoString Constraints
  Check : Constraints → Version → Bool

/-- The digits `strconv` writes a byte in hexadecimal with. -/
def lowerhex (n : Nat) : Byte :=
  if n < 10 then Fin.ofNat (0x30 + n) else Fin.ofNat (0x61 + (n - 10))

/-- How `strconv.Quote` writes one ASCII byte inside the quotes: the quote and the
backslash get a backslash in front, the other printable characters stand for
themselves, and a control character is written as an escape sequence. -/
def quoteByte (b : Byte) : GoString :=
  if b = 0x22 ∨ b = 0x5c then [0x5c, b]
  else if 0x20 ≤ b ∧ b < 0x7f then [b]
  else if b = 0x07 then ascii "\\a"
  else if b = 0x08 then ascii "\\b"
  else if b = 0x0c then ascii "\\f"
  else if b = 0x0a then ascii "\\n"
  else if b = 0x0d then ascii "\\r"
  else if b = 0x09 then ascii "\\t"
  else if b = 0x0b then ascii "\\v"
  else ascii "\\x" ++ [lowerhex (b.val / 16), lowerhex (b.val % 16)]

/-- What `strconv.Quote` writes between the quotes.  It reads the string from left to
right; an ASCII byte is written with `quoteByte`.  A byte from `0x80` on starts a
multi-byte character, and what is written from there depends on UTF-8 decoding and on
the Unicode tables of the standard library: `nonASCII` gives it, as a function of the
rest of the string. -/
def quoteBody (nonASCII : GoString → GoString) : GoString → GoString
  | [] => []
  | b :: rest => if b < 0x80 then quoteByte b ++ quoteBody nonASCII rest else nonASCII (b :: rest)

/-- The standard library's `strconv.Quote`, which the verb `%q` of `fmt` applies to a
string argument: a double-quoted Go string literal. -/
def Quote (nonASCII : GoString → GoString) (s : GoString) : GoString :=
  [0x22] ++ quoteBody nonASCII s ++ [0x22]

/-- The function `CheckVersion` of `utils.go`.  The result is the pair the Go function
returns: the boolean, and the error, `none` for `nil` and `some msg` for an error whose
text is `msg`.  The two messages are those of
`fmt.Errorf("Unable to parse version %q: %v", versionString, err)` and
`fmt.Errorf("Unable to parse version constraint %q: %v", versionConstraint, err)`. -/
def CheckVersion (lib : VersionLib) (nonASCII : GoString → GoString)
    (versionString versionConstraint : GoString) : Bool × Option GoString :=
  match lib.NewVersion versionString with
  | .error err =>
    (false, some (ascii "Unable to parse version " ++ Quote nonASCII versionString
      ++ ascii ": " ++ err))
  | .ok ver =>
    match lib.NewConstraint versionConstraint with
    | .error err =>
      (false, some (ascii "Unable to parse version constraint "
        ++ Quote nonASCII versionConstraint ++ ascii ": " ++ err))
    | .ok constraint => (lib.Check constraint ver, none)

/-- A string of printable ASCII characters other than the double quote and the
backslash: the characters `strconv.Quote` writes unchanged. -/
def plainASCII (s : GoString) : Prop :=
  ∀ b ∈ s, 0x20 ≤ b ∧ b < 0x7f ∧ b ≠ 0x22 ∧ b ≠ 0x5c

/-- A fragment of go-version, for the examples.  It parses the version `1.0.0` and the
constraint `>=1.0.0`, which that version satisfies.  Every other text is rejected with
the error go-version gives for a text that is not of the right form:
`Malformed version: ` and the text, or `Malformed constraint: ` and the first of the
comma-separated clauses of the text (go-version parses the clauses one after the other
and reports the first that fails).  It is used only at texts go-version treats the same
way. -/
def exampleLib : VersionLib where
  Version := Unit
  Constraints := Unit
  NewVersion v :=
    if v = ascii "1.0.0" then .ok () else .error (ascii "Malformed version: " ++ v)
  NewConstraint c :=
    if c = ascii ">=1.0.0" then .ok ()
    else .error (ascii "Malformed constraint: " ++ c.takeWhile (fun b => b ≠ 0x2c))
  Check _ _ := true

/-! ## testProvider (`internal/acctest/provider_factory.go`) -/

/-- The type `incus_config.Config` of the Incus client library.  `testProvider` touches
one field, `DefaultRemote`; `rest` stands for all the others. -/
structure Config (R : Type) where
  DefaultRemote : GoString
  rest : R

/-- What a call of `testProvider` finds outside the package at the time it runs:
`os.Getenv` (the empty string for a variable that is not set), `LoadConfig` and
`DefaultConfig` of the Incus client library, and the constructor `NewIncusProvider` of
the package `provider-config`.  A call of `LoadConfig` that returns a non-nil `error` is
`Except.error` with the error.  `NewIncusProvider` wraps its two arguments in a new
object and returns a pointer to it, never `nil`; `NewIncusProvider config accept` here
is the object, of some type `P`. -/
structure Ambient (R P E : Type) where
  Getenv : GoString → GoString
  LoadConfig : GoString → Except E (Config R)
  DefaultConfig : Config R
  NewIncusProvider : Config R → Bool → P

/-- A non-nil pointer `*IncusProviderConfig`: the address of the object and the object.
Two pointers are the same instance when they have the same address. -/
structure Ptr (P : Type) where
  addr : Nat
  target : P

/-- The memory `testProvider` works on: the package variables `testProviderConfig`
(`none` is `nil`) and `testProviderMutex` (`true` when locked), and the number of objects
allocated so far, which is the address the next new object gets. -/
structure Memory (P : Type) where
  testProviderConfig : Option (Ptr P)
  testProviderMutex : Bool
  allocated : Nat

/-- The memory when the program starts: no configuration, the mutex unlocked. -/
def Memory.start (P : Type) : Memory P := ⟨none, false, 0⟩

/-- What a call does that can be observed from outside, in the order it does it. -/
inductive Effect where
  | lock
  | unlock
  | getenv (name : GoString)
  | loadConfig (path : GoString)
  | defaultConfig
  | newIncusProvider (acceptClientCert : Bool)
  deriving DecidableEq

/-- How a call ends: it returns a pointer, it panics with an error, or it never gets the
mutex. -/
inductive Completion (P E : Type) where
  | returned (p : Ptr P)
  | panicked (err : E)
  | blocked

/-- A call of `testProvider`: how it ends, the memory it leaves, and what it did. -/
structure Outcome (P E : Type) where
  completion : Completion P E
  memory : Memory P
  effects : List Effect

/-- The body of `testProvider` between `Lock` and the deferred `Unlock`. -/
def testProviderBody {R P E : Type} (a : Ambient R P E) (s : Memory P) : Outcome P E :=
  match s.testProviderConfig with
  | none =>
    let incusRemote := a.Getenv (ascii "INCUS_REMOTE")
    if incusRemote ≠ [] then
      match a.LoadConfig [] with
      | .error err =>
        ⟨.panicked err, s, [.getenv (ascii "INCUS_REMOTE"), .loadConfig []]⟩
      | .ok config =>
        let config : Config R := { config with DefaultRemote := incusRemote }
        let acceptClientCert := true
        let p : Ptr P := ⟨s.allocated, a.NewIncusProvider config acceptClientCert⟩
        ⟨.returned p, { s with testProviderConfig := some p, allocated := s.allocated + 1 },
          [.getenv (ascii "INCUS_REMOTE"), .loadConfig [], .newIncusProvider acceptClientCert]⟩
    else
      let config : Config R := a.DefaultConfig
      let acceptClientCert := true
      let p : Ptr P := ⟨s.allocated, a.NewIncusProvider config acceptClientCert⟩
      ⟨.returned p, { s with testProviderConfig := some p, allocated := s.allocated + 1 },
        [.getenv (ascii "INCUS_REMOTE"), .defaultConfig, .newIncusProvider acceptClientCert]⟩
  | some p => ⟨.returned p, s, []⟩

/-- The function `testProvider`.  `testProviderMutex.Lock()` does not return while the
mutex is locked; otherwise it locks it, the body runs, and the deferred
`testProviderMutex.Unlock()` runs when the body returns and also when it panics. -/
def testProvider {R P E : Type} (a : Ambient R P E) (s : Memory P) : Outcome P E :=
  if s.testProviderMutex then ⟨.blocked, s, []⟩
  else
    let o := testProviderBody a { s with testProviderMutex := true }
    ⟨o.completion, { o.memory with testProviderMutex := false },
      [.lock] ++ o.effects ++ [.unlock]⟩

/-- A sequence of calls of `testProvider`, one after the other, each in the surroundings
it finds: the outcomes of the calls, in order. -/
def runCalls {R P E : Type} : List (Ambient R P E) → Memory P → List (Outcome P E)
  | [], _ => []
  | a :: rest, s => testProvider a s :: runCalls rest (testProvider a s).memory

/-- The pointer returned by the first call that returns, in a sequence of outcomes. -/
def firstReturned {P E : Type} : List (Outcome P E) → Option (Ptr P)
  | [] => none
  | o :: rest =>
    match o.completion with
    | .returned p => some p
    | _ => firstReturned rest

/-- Surroundings for the examples: `INCUS_REMOTE` has the value `remote` (every other
variable is unset), the configuration file cannot be read when `broken` is true and
holds the default remote `local` otherwise, and a provider configuration is the pair of
its two arguments. -/
def exampleAmbient (remote : GoString) (broken : Bool) :
    Ambient Unit (Config Unit × Bool) GoString where
  Getenv name := if name = ascii "INCUS_REMOTE" then remote else []
  LoadConfig _ := if broken then .error (ascii "cannot read config") else .ok ⟨ascii "local", ()⟩
  DefaultConfig := ⟨ascii "local", ()⟩
  NewIncusProvider config acceptClientCert := (config, acceptClientCert)

/-- Whether an effect is a call of `LoadConfig`. -/
def Effect.isLoadConfig : Effect → Bool
  | .loadConfig _ => true
  | _ => false

/-! ## ContextTimeout -/

/-- The constant `time.Second`: a `time.Duration` is a signed 64-bit count of
nanoseconds. -/
def Second : Int := 1000000000

/-- The least `time.Duration`, `-2^63` nanoseconds. -/
def minDuration : Int := -9223372036854775808

/-- The greatest `time.Duration`, `2^63 - 1` nanoseconds. -/
def maxDuration : Int := 9223372036854775807

/-- The integer nearest to `q`, the even one of the two when `q` lies half-way. -/
def roundHalfEven (q : ℚ) : ℤ :=
  if q - ⌊q⌋ < 1 / 2 then ⌊q⌋
  else if 1 / 2 < q - ⌊q⌋ then ⌊q⌋ + 1
  else if ⌊q⌋ % 2 = 0 then ⌊q⌋ else ⌊q⌋ + 1

/-- The `float64` nearest to a positive number `x`: with `2^e ≤ x < 2^(e+1)`, the
multiple of `2^(e-52)` nearest to `x` (53 significant bits, ties to even).  Every number
rounded in this file is `0` or lies between `10^-9` and `2^64`, far from the ends of the
`float64` range. -/
def roundPositive (x : ℚ) : ℚ :=
  roundHalfEven (x / 2 ^ (Int.log 2 x - 52)) * 2 ^ (Int.log 2 x - 52)

/-- The `float64` nearest to `x`.  A `float64` value is the rational number it stands
for; a conversion to `float64` and an operation on `float64` values give the exact
result rounded with `toFloat64`. -/
def toFloat64 (x : ℚ) : ℚ :=
  if x = 0 then 0 else if x < 0 then -roundPositive (-x) else roundPositive x

/-- The standard library's `Duration.Seconds`:
`sec := d / Second; nsec := d % Second; return float64(sec) + float64(nsec)/1e9`,
where `/` and `%` on integers truncate toward zero. -/
def Seconds (d : Int) : ℚ :=
  let sec := Int.tdiv d Second
  let nsec := Int.tmod d Second
  toFloat64 (toFloat64 sec + toFloat64 (toFloat64 nsec / 1000000000))

/-- The conversion `int(x)` of a `float64`: the fraction is discarded. -/
def toInt (x : ℚ) : ℤ := if x < 0 then -⌊-x⌋ else ⌊x⌋

/-- A difference of two instants as a `time.Duration`: outside the range of `Duration`
the standard library returns the least or the greatest duration. -/
def saturate (d : Int) : Int :=
  if d < minDuration then minDuration else if maxDuration < d then maxDuration else d

/-- The standard library's `time.Until(deadline)`, the duration from the current time
`now` to `deadline`.  An instant is a count of nanoseconds on the clock. -/
def Until (now deadline : Int) : Int := saturate (deadline - now)

/-- A `context.Context`, as far as `ContextTimeout` looks at it: `ctx.Deadline()`
returns a deadline and `true` (`some`), or `false` (`none`). -/
structure Context where
  Deadline : Option Int

/-- The function `ContextTimeout` of `utils.go`, called at the time `now`, with the
default timeout `defaultTimeout` (the parameter `def`). -/
def ContextTimeout (now : Int) (ctx : Context) (defaultTimeout : Int) : Int :=
  match ctx.Deadline with
  | some deadline => toInt (Seconds (Until now deadline))
  | none => toInt (Seconds defaultTimeout)

/-! ## The version library, from the spec -/

/-- Modelled from the spec: part of the version library
(`github.com/hashicorp/go-version`, not under `src/`).  Whether a byte is a decimal
digit. -/
def isDigit (b : Byte) : Bool := decide (0x30 ≤ b) && decide (b ≤ 0x39)

/-- Modelled from the spec: part of the version library.  Whether a byte may occur in an
identifier of the pre-release or build metadata: a digit, a letter or the hyphen. -/
def isIdentifierByte (b : Byte) : Bool :=
  isDigit b || (decide (0x41 ≤ b) && decide (b ≤ 0x5a)) ||
    (decide (0x61 ≤ b) && decide (b ≤ 0x7a)) || decide (b = 0x2d)

/-- Modelled from the spec: part of the version library.  The pieces of `s` between the
occurrences of the byte `sep`. -/
def splitOn (sep : Byte) : GoString → List GoString
  | [] => [[]]
  | b :: rest =>
    if b = sep then [] :: splitOn sep rest
    else
      match splitOn sep rest with
      | [] => [[b]]
      | piece :: pieces => (b :: piece) :: pieces

/-- Modelled from the spec: part of the version library.  The text before the first
occurrence of the byte `sep`, and the text after it when there is one. -/
def cut (sep : Byte) : GoString → GoString × Option GoString
  | [] => ([], none)
  | b :: rest =>
    if b = sep then ([], some rest) else ((b :: (cut sep rest).1), (cut sep rest).2)

/-- Modelled from the spec: part of the version library.  A list of results, when none
of them is a failure. -/
def collect {α : Type} : List (Option α) → Option (List α)
  | [] => some []
  | none :: _ => none
  | some a :: rest => (collect rest).map (fun l => a :: l)

/-- Modelled from the spec: part of the version library.  The number written by a
non-empty string of decimal digits; semantic versioning allows no leading zero, except
in the number `0` itself. -/
def parseNumber (s : GoString) : Option Nat :=
  if s ≠ [] ∧ s.all isDigit = true ∧ (s.length = 1 ∨ s.head? ≠ some 0x30) then
    some (s.foldl (fun n b => 10 * n + (b.val - 0x30)) 0)
  else none

/-- Modelled from the spec: part of the version library.  An identifier of the
pre-release metadata: a number, or a text with a letter or a hyphen in it. -/
inductive Identifier where
  | numeric (n : Nat)
  | alphanumeric (s : GoString)
  deriving DecidableEq

/-- Modelled from the spec: part of the version library.  Reading one identifier of the
pre-release metadata. -/
def parseIdentifier (s : GoString) : Option Identifier :=
  if s ≠ [] ∧ s.all isIdentifierByte = true then
    if s.all isDigit = true then (parseNumber s).map (fun n => .numeric n)
    else some (.alphanumeric s)
  else none

/-- Modelled from the spec: a parsed version text of the version library, "major.minor.patch
with optional pre-release/build metadata". -/
structure SemVer where
  major : Nat
  minor : Nat
  patch : Nat
  pre : List Identifier
  build : List GoString
  deriving DecidableEq

/-- Modelled from the spec: the version parser of the version library ("parses
`versionText` under semantic-versioning rules").  The text is
`major.minor.patch`, then optionally `-` and dot-separated pre-release identifiers,
then optionally `+` and dot-separated build identifiers. -/
def parseSemVer (s : GoString) : Option SemVer :=
  match splitOn 0x2e (cut 0x2d (cut 0x2b s).1).1 with
  | [a, b, c] =>
    match parseNumber a, parseNumber b, parseNumber c,
      (match (cut 0x2d (cut 0x2b s).1).2 with
        | none => some []
        | some t => collect ((splitOn 0x2e t).map parseIdentifier)),
      (match (cut 0x2b s).2 with
        | none => some []
        | some t =>
          if (splitOn 0x2e t).all (fun i => decide (i ≠ []) && i.all isIdentifierByte) = true
          then some (splitOn 0x2e t) else none) with
    | some major, some minor, some patch, some pre, some build =>
      some ⟨major, minor, patch, pre, build⟩
    | _, _, _, _, _ => none
  | _ => none

/-- Modelled from the spec: the order of pre-release identifiers in semantic versioning.
Numbers are compared as numbers, texts byte by byte, and a number is lower than a
text. -/
def Identifier.less : Identifier → Identifier → Bool
  | .numeric a, .numeric b => decide (a < b)
  | .numeric _, .alphanumeric _ => true
  | .alphanumeric _, .numeric _ => false
  | .alphanumeric a, .alphanumeric b => stringLess a b

/-- Modelled from the spec: the order of pre-release metadata in semantic versioning:
identifier by identifier from the left, and of two lists that agree as far as the
shorter one goes the shorter one is lower. -/
def identifiersLess : List Identifier → List Identifier → Bool
  | [], [] => false
  | [], _ :: _ => true
  | _ :: _, [] => false
  | a :: as, b :: bs =>
    if a.less b then true else if b.less a then false else identifiersLess as bs

/-- Modelled from the spec: the order of the pre-release parts of two versions with the
same major, minor and patch numbers: a version with pre-release metadata is lower than
the version without. -/
def preLess : List Identifier → List Identifier → Bool
  | [], _ => false
  | _ :: _, [] => true
  | a :: as, b :: bs => identifiersLess (a :: as) (b :: bs)

/-- Modelled from the spec: "standard semantic-version ordering", the precedence of
semantic versioning: major, minor and patch are compared as numbers, in this order, then
the pre-release metadata; build metadata is ignored. -/
def SemVer.less (a b : SemVer) : Bool :=
  if a.major ≠ b.major then decide (a.major < b.major)
  else if a.minor ≠ b.minor then decide (a.minor < b.minor)
  else if a.patch ≠ b.patch then decide (a.patch < b.patch)
  else preLess a.pre b.pre

/-- Modelled from the spec: the comparison operators of a constraint clause: exact,
exclusion, the two strict bounds, at-least and at-most. -/
inductive Operator where
  | eq | ne | gt | lt | ge | le
  deriving DecidableEq

/-- Modelled from the spec: a clause of a constraint of the version library, a
comparison operator and the version it compares with. -/
structure Clause where
  op : Operator
  bound : SemVer
  deriving DecidableEq

/-- Modelled from the spec: whether a version satisfies a clause, by the order of
versions. -/
def Clause.holds (cl : Clause) (v : SemVer) : Bool :=
  match cl.op with
  | .eq => !v.less cl.bound && !cl.bound.less v
  | .ne => v.less cl.bound || cl.bound.less v
  | .gt => cl.bound.less v
  | .lt => v.less cl.bound
  | .ge => !v.less cl.bound
  | .le => !cl.bound.less v

/-- Modelled from the spec: part of the version library.  A text without the spaces at
its two ends. -/
def trimSpaces (s : GoString) : GoString :=
  ((s.dropWhile (fun b => decide (b = 0x20))).reverse.dropWhile
    (fun b => decide (b = 0x20))).reverse

/-- Modelled from the spec: the clause parser of the version library: an operator
(`>=`, `<=`, `!=`, `=`, `>`, `<`, or none for exact) followed by a version, with spaces
allowed around both. -/
def parseClause (s : GoString) : Option Clause :=
  if HasPrefix (trimSpaces s) (ascii ">=") then
    (parseSemVer (trimSpaces ((trimSpaces s).drop 2))).map (fun b => ⟨.ge, b⟩)
  else if HasPrefix (trimSpaces s) (ascii "<=") then
    (parseSemVer (trimSpaces ((trimSpaces s).drop 2))).map (fun b => ⟨.le, b⟩)
  else if HasPrefix (trimSpaces s) (ascii "!=") then
    (parseSemVer (trimSpaces ((trimSpaces s).drop 2))).map (fun b => ⟨.ne, b⟩)
  else if HasPrefix (trimSpaces s) (ascii "=") then
    (parseSemVer (trimSpaces ((trimSpaces s).drop 1))).map (fun b => ⟨.eq, b⟩)
  else if HasPrefix (trimSpaces s) (ascii ">") then
    (parseSemVer (trimSpaces ((trimSpaces s).drop 1))).map (fun b => ⟨.gt, b⟩)
  else if HasPrefix (trimSpaces s) (ascii "<") then
    (parseSemVer (trimSpaces ((trimSpaces s).drop 1))).map (fun b => ⟨.lt, b⟩)
  else (parseSemVer (trimSpaces s)).map (fun b => ⟨.eq, b⟩)

/-- Modelled from the spec: the version library `github.com/hashicorp/go-version`, which
is not under `src/`.  A version text is parsed "under semantic-versioning rules" and a
malformed one is an error "naming the offending text"; a constraint text is "one or
more comparison clauses" separated by commas; and the check "returns whether the parsed
version satisfies every clause of the parsed constraint (logical AND across
comma-separated clauses)". -/
def specLib : VersionLib where
  Version := SemVer
  Constraints := List Clause
  NewVersion v :=
    match parseSemVer v with
    | some ver => .ok ver
    | none => .error (ascii "Malformed version: " ++ v)
  NewConstraint c :=
    match collect ((splitOn 0x2c c).map parseClause) with
    | some clauses => .ok clauses
    | none => .error (ascii "Malformed constraint: " ++ c)
  Check clauses ver := clauses.all (fun cl => cl.holds ver)

/-- Whether an effect is a call of `NewIncusProvider`. -/
def Effect.isNewIncusProvider : Effect → Bool
  | .newIncusProvider _ => true
  | _ => false

/-- Everything the calls of a sequence did, in order. -/
def effectsOf {P E : Type} : List (Outcome P E) → List Effect
  | [] => []
  | o :: rest => o.effects ++ effectsOf rest

/-! ## Lemmas on Go maps -/

namespace GoMap

variable {K V : Type}

theorem mem_keys_store [DecidableEq K] (k : K) (v : V) (l : List (K × V)) (x : K) :
    x ∈ (store k v l).map Prod.fst ↔ x = k ∨ x ∈ l.map Prod.fst := by
  induction l with
  | nil => simp [store]
  | cons e rest ih =>
    by_cases he : e.1 = k
    · simp only [store, he, if_true, List.map_cons, List.mem_cons]
      constructor
      · rintro (h | h)
        · exact Or.inl h
        · exact Or.inr (Or.inr h)
      · rintro (h | h | h)
        · exact Or.inl h
        · exact Or.inl h
        · exact Or.inr h
    · simp only [store, he, if_false, List.map_cons, List.mem_cons, ih]
      constructor
      · rintro (h | h | h)
        · exact Or.inr (Or.inl h)
        · exact Or.inl h
        · exact Or.inr (Or.inr h)
      · rintro (h | h | h)
        · exact Or.inr (Or.inl h)
        · exact Or.inl h
        · exact Or.inr (Or.inr h)

theorem mem_keys_set [DecidableEq K] (m : GoMap K V) (k : K) (v : V) (x : K) :
    x ∈ (m.set k v).keys ↔ x = k ∨ x ∈ m.keys :=
  mem_keys_store k v m.entries x

theorem mem_store_value [DecidableEq K] (k : K) (v : V) (l : List (K × V)) (e : K × V)
    (he : e ∈ store k v l) : e = (k, v) ∨ e ∈ l := by
  induction l with
  | nil => simpa [store] using he
  | cons f rest ih =>
    by_cases hf : f.1 = k
    · simp only [store, hf, if_true, List.mem_cons] at he
      rcases he with h | h
      · exact Or.inl h
      · exact Or.inr (List.mem_cons_of_mem _ h)
    · simp only [store, hf, if_false, List.mem_cons] at he
      rcases he with h | h
      · exact Or.inr (h ▸ List.mem_cons_self _ _)
      · rcases ih h with h' | h'
        · exact Or.inl h'
        · exact Or.inr (List.mem_cons_of_mem _ h')

theorem keys_nodup (m : GoMap K V) : m.keys.Nodup := m.nodupKeys

theorem range_perm (ord : RangeOrder K) (m : GoMap K V) : (m.range ord).Perm m.keys :=
  ord.visit_perm m.keys

theorem range_nodup (ord : RangeOrder K) (m : GoMap K V) : (m.range ord).Nodup :=
  (range_perm ord m).nodup_iff.mpr m.keys_nodup

theorem mem_range (ord : RangeOrder K) (m : GoMap K V) (x : K) :
    x ∈ m.range ord ↔ x ∈ m.keys :=
  (range_perm ord m).mem_iff

/-- In a map whose stored values are all `true`, `m[k]` is `true` exactly for the keys. -/
theorem index_true_iff [DecidableEq K] (m : GoMap K Bool)
    (hall : ∀ e ∈ m.entries, e.2 = true) (x : K) :
    m.index false x = true ↔ x ∈ m.keys := by
  unfold index keys
  cases hfind : m.entries.find? (fun e => decide (e.1 = x)) with
  | none =>
    simp only [Bool.false_eq_true, false_iff, List.mem_map, not_exists, not_and]
    intro e he hex
    have := List.find?_eq_none.mp hfind e he
    simp [hex] at this
  | some e =>
    have hmem : e ∈ m.entries := List.mem_of_find?_eq_some hfind
    have hkey : e.1 = x := by simpa using List.find?_some hfind
    simp only [hall e hmem, true_iff, List.mem_map]
    exact ⟨e, hmem, hkey⟩

end GoMap

/-! ## Lemmas on DiffSlices -/

theorem foldl_append_if {T : Type} (p : T → Bool) (l init : List T) :
    l.foldl (fun acc k => if p k then acc ++ [k] else acc) init = init ++ l.filter p := by
  induction l generalizing init with
  | nil => simp
  | cons a rest ih =>
    rw [List.foldl_cons, ih]
    by_cases ha : p a = true
    · simp [ha]
    · simp [ha]

section DiffSlicesLemmas

variable {T : Type} [DecidableEq T]

/-- The map `DiffSlices` builds from a slice: every element written with value `true`. -/
theorem mem_keys_recorded (s : List T) (m : GoMap T Bool) (x : T) :
    x ∈ (s.foldl (fun m k => m.set k true) m).keys ↔ x ∈ s ∨ x ∈ m.keys := by
  induction s generalizing m with
  | nil => simp
  | cons a rest ih =>
    rw [List.foldl_cons, ih, GoMap.mem_keys_set, List.mem_cons]
    constructor
    · rintro (h | h | h)
      · exact Or.inl (Or.inr h)
      · exact Or.inl (Or.inl h)
      · exact Or.inr h
    · rintro ((h | h) | h)
      · exact Or.inr (Or.inl h)
      · exact Or.inl h
      · exact Or.inr (Or.inr h)

theorem values_recorded (s : List T) (m : GoMap T Bool)
    (hall : ∀ e ∈ m.entries, e.2 = true) :
    ∀ e ∈ (s.foldl (fun m k => m.set k true) m).entries, e.2 = true := by
  induction s generalizing m with
  | nil => simpa using hall
  | cons a rest ih =>
    rw [List.foldl_cons]
    apply ih
    intro e he
    rcases GoMap.mem_store_value a true m.entries e he with h | h
    · rw [h]
    · exact hall e h

theorem index_recorded (s : List T) (x : T) :
    (s.foldl (fun m k => m.set k true) (GoMap.make : GoMap T Bool)).index false x = true
      ↔ x ∈ s := by
  rw [GoMap.index_true_iff _ (values_recorded s _ (by simp [GoMap.make])), mem_keys_recorded]
  simp [GoMap.make, GoMap.keys]

theorem DiffSlices_fst (ordA ordB : RangeOrder T) (sliceA sliceB : List T) :
    (DiffSlices ordA ordB sliceA sliceB).1 =
      ((sliceA.foldl (fun m k => m.set k true) (GoMap.make : GoMap T Bool)).range ordA).filter
        (fun k =>
          (sliceB.foldl (fun m k => m.set k true) (GoMap.make : GoMap T Bool)).index false k) := by
  simp only [DiffSlices, foldl_append_if, List.nil_append]

theorem DiffSlices_snd (ordA ordB : RangeOrder T) (sliceA sliceB : List T) :
    (DiffSlices ordA ordB sliceA sliceB).2 =
      ((sliceB.foldl (fun m k => m.set k true) (GoMap.make : GoMap T Bool)).range ordB).filter
        (fun k =>
          (sliceA.foldl (fun m k => m.set k true) (GoMap.make : GoMap T Bool)).index false k) := by
  simp only [DiffSlices, foldl_append_if, List.nil_append]

theorem mem_DiffSlices_fst (ordA ordB : RangeOrder T) (sliceA sliceB : List T) (x : T) :
    x ∈ (DiffSlices ordA ordB sliceA sliceB).1 ↔ x ∈ sliceA ∧ x ∈ sliceB := by
  rw [DiffSlices_fst, List.mem_filter, GoMap.mem_range, mem_keys_recorded, index_recorded]
  simp [GoMap.make, GoMap.keys]

theorem mem_DiffSlices_snd (ordA ordB : RangeOrder T) (sliceA sliceB : List T) (x : T) :
    x ∈ (DiffSlices ordA ordB sliceA sliceB).2 ↔ x ∈ sliceB ∧ x ∈ sliceA := by
  rw [DiffSlices_snd, List.mem_filter, GoMap.mem_range, mem_keys_recorded, index_recorded]
  simp [GoMap.make, GoMap.keys]

theorem nodup_DiffSlices_fst (ordA ordB : RangeOrder T) (sliceA sliceB : List T) :
    (DiffSlices ordA ordB sliceA sliceB).1.Nodup := by
  rw [DiffSlices_fst]
  exact (GoMap.range_nodup _ _).filter _

theorem nodup_DiffSlices_snd (ordA ordB : RangeOrder T) (sliceA sliceB : List T) :
    (DiffSlices ordA ordB sliceA sliceB).2.Nodup := by
  rw [DiffSlices_snd]
  exact (GoMap.range_nodup _ _).filter _

end DiffSlicesLemmas

/-! ## DiffSlices: the claims -/

/-- C1 (the code at the failing input): the doc comment of `DiffSlices` promises the
removed and the added elements, and the comments on the two loops say "elements in
listA but not in listB" and "elements in listB but not in listA".  For the slices
`[1]` and `[2]` that is `([1], [2])`; the code returns two empty slices, whatever the
order of the two `range` loops. -/
theorem DiffSlices_disjoint_singletons (ordA ordB : RangeOrder Nat) :
    DiffSlices ordA ordB [1] [2] = ([], []) := by
  have h1 : (DiffSlices ordA ordB [1] [2]).1 = [] := by
    apply List.eq_nil_iff_forall_not_mem.mpr
    intro x hx
    rw [mem_DiffSlices_fst] at hx
    simp only [List.mem_singleton] at hx
    omega
  have h2 : (DiffSlices ordA ordB [1] [2]).2 = [] := by
    apply List.eq_nil_iff_forall_not_mem.mpr
    intro x hx
    rw [mem_DiffSlices_snd] at hx
    simp only [List.mem_singleton] at hx
    omega
  exact Prod.ext h1 h2

theorem same_eq_decide {T : Type} [DecidableEq T] (cmp : Comparable T) (a b : T)
    (h : cmp.eq a b = some (decide (a = b))) : cmp.same a b = decide (a = b) := by
  unfold Comparable.same
  rw [h]
  by_cases hab : a = b <;> simp [hab]

theorem storeWith_eq_store {K V : Type} [DecidableEq K] (same : K → K → Bool) (k : K) (v : V)
    (l : List (K × V)) (h : ∀ e ∈ l, same e.1 k = decide (e.1 = k)) :
    GoMap.storeWith same k v l = GoMap.store k v l := by
  induction l with
  | nil => rfl
  | cons e rest ih =>
    have he := h e (List.mem_cons_self _ _)
    have hrest : ∀ f ∈ rest, same f.1 k = decide (f.1 = k) :=
      fun f hf => h f (List.mem_cons_of_mem _ hf)
    rw [GoMap.storeWith, GoMap.store, he, ih hrest]
    by_cases hek : e.1 = k
    · simp [hek]
    · simp [hek]

theorem find?_eq_of_agree {α : Type} (p q : α → Bool) (l : List α) (h : ∀ e ∈ l, p e = q e) :
    l.find? p = l.find? q := by
  induction l with
  | nil => rfl
  | cons e rest ih =>
    have he := h e (List.mem_cons_self _ _)
    have hrest : ∀ f ∈ rest, p f = q f := fun f hf => h f (List.mem_cons_of_mem _ hf)
    simp only [List.find?_cons, he, ih hrest]

theorem indexWith_eq_index {K V : Type} [DecidableEq K] (same : K → K → Bool) (m : GoMap K V)
    (zero : V) (k : K) (h : ∀ e ∈ m.entries, same e.1 k = decide (e.1 = k)) :
    GoMap.indexWith same m.entries zero k = m.index zero k := by
  unfold GoMap.indexWith GoMap.index
  rw [find?_eq_of_agree _ (fun e => decide (e.1 = k)) m.entries h]

theorem entries_recorded {T : Type} [DecidableEq T] (s : List T) (m : GoMap T Bool) :
    (s.foldl (fun m k => m.set k true) m).entries
      = s.foldl (fun l k => GoMap.store k true l) m.entries := by
  induction s generalizing m with
  | nil => rfl
  | cons k rest ih =>
    rw [List.foldl_cons, List.foldl_cons, ih]
    rfl

theorem recordAll_eq {T : Type} [DecidableEq T] (cmp : Comparable T) (U s : List T)
    (m : List (T × Bool))
    (hexact : ∀ a ∈ U, ∀ b ∈ U, cmp.eq a b = some (decide (a = b)))
    (hs : ∀ x ∈ s, x ∈ U) (hm : ∀ e ∈ m, e.1 ∈ U) :
    recordAll cmp s m = some (s.foldl (fun l k => GoMap.store k true l) m) := by
  induction s generalizing m with
  | nil => rfl
  | cons k rest ih =>
    have hk : k ∈ U := hs k (List.mem_cons_self _ _)
    have hrest : ∀ x ∈ rest, x ∈ U := fun x hx => hs x (List.mem_cons_of_mem _ hx)
    have hstore : GoMap.storeWith cmp.same k true m = GoMap.store k true m :=
      storeWith_eq_store cmp.same k true m
        (fun e he => same_eq_decide cmp e.1 k (hexact e.1 (hm e he) k hk))
    have hm' : ∀ e ∈ GoMap.store k true m, e.1 ∈ U := by
      intro e he
      rcases GoMap.mem_store_value k true m e he with h | h
      · rw [h]; exact hk
      · exact hm e h
    simp only [recordAll, hexact k hk k hk, hstore, List.foldl_cons]
    exact ih (GoMap.store k true m) hrest hm'

/-- On slices on whose elements `==` is equality of values, the function on an arbitrary
comparable type does not panic and returns what `DiffSlices` returns. -/
theorem DiffSlicesCmp_eq_DiffSlices {T : Type} [DecidableEq T] (cmp : Comparable T)
    (ordA ordB : RangeOrder T) (A B : List T)
    (hexact : ∀ a ∈ A ++ B, ∀ b ∈ A ++ B, cmp.eq a b = some (decide (a = b))) :
    DiffSlicesCmp cmp ordA ordB A B = some (DiffSlices ordA ordB A B) := by
  have hA : ∀ x ∈ A, x ∈ A ++ B := fun x hx => List.mem_append_left _ hx
  have hB : ∀ x ∈ B, x ∈ A ++ B := fun x hx => List.mem_append_right _ hx
  have hrecA := recordAll_eq cmp (A ++ B) A [] hexact hA (by simp)
  have hrecB := recordAll_eq cmp (A ++ B) B [] hexact hB (by simp)
  have hentA := entries_recorded A (GoMap.make : GoMap T Bool)
  have hentB := entries_recorded B (GoMap.make : GoMap T Bool)
  have hkeyA : ∀ e ∈ (A.foldl (fun m k => m.set k true) (GoMap.make : GoMap T Bool)).entries,
      e.1 ∈ A := by
    intro e he
    have : e.1 ∈ (A.foldl (fun m k => m.set k true) (GoMap.make : GoMap T Bool)).keys :=
      List.mem_map_of_mem Prod.fst he
    rw [mem_keys_recorded] at this
    simpa [GoMap.make, GoMap.keys] using this
  have hkeyB : ∀ e ∈ (B.foldl (fun m k => m.set k true) (GoMap.make : GoMap T Bool)).entries,
      e.1 ∈ B := by
    intro e he
    have : e.1 ∈ (B.foldl (fun m k => m.set k true) (GoMap.make : GoMap T Bool)).keys :=
      List.mem_map_of_mem Prod.fst he
    rw [mem_keys_recorded] at this
    simpa [GoMap.make, GoMap.keys] using this
  have hmake : (GoMap.make : GoMap T Bool).entries = [] := rfl
  rw [hmake] at hentA hentB
  unfold DiffSlicesCmp
  rw [hrecA, hrecB]
  simp only [foldl_append_if, List.nil_append, ← hentA, ← hentB, Option.some.injEq]
  apply Prod.ext
  · rw [DiffSlices_fst]
    apply List.filter_congr
    intro k hk
    have hkA : k ∈ A := by
      have := (GoMap.mem_range ordA _ k).mp hk
      rw [mem_keys_recorded] at this
      simpa [GoMap.make, GoMap.keys] using this
    exact indexWith_eq_index cmp.same _ false k
      (fun e he => same_eq_decide cmp e.1 k (hexact e.1 (hB _ (hkeyB e he)) k (hA k hkA)))
  · rw [DiffSlices_snd]
    apply List.filter_congr
    intro k hk
    have hkB : k ∈ B := by
      have := (GoMap.mem_range ordB _ k).mp hk
      rw [mem_keys_recorded] at this
      simpa [GoMap.make, GoMap.keys] using this
    exact indexWith_eq_index cmp.same _ false k
      (fun e he => same_eq_decide cmp e.1 k (hexact e.1 (hA _ (hkeyA e he)) k (hB k hkB)))

/-- C2 as stated fails: for the `float64` slices `A = B = [NaN]` the element NaN is in
`A` and in `B`, and `DiffSlices(A, B)` returns two empty results: a NaN key is never
found in a map, since `NaN == NaN` is false. -/
theorem DiffSlicesCmp_nan_not_common :
    Float64Value.nan ∈ [Float64Value.nan] ∧
    DiffSlicesCmp Comparable.float64 (RangeOrder.stored _) (RangeOrder.stored _)
      [Float64Value.nan] [Float64Value.nan] = some ([], []) ∧
    DiffSlicesCmp Comparable.float64 (RangeOrder.reversed _) (RangeOrder.reversed _)
      [Float64Value.nan] [Float64Value.nan] = some ([], []) :=
  ⟨List.mem_singleton.mpr rfl, rfl, rfl⟩

/-- C2, amended: for all slices `A` and `B` on whose elements `==` is equality of values
(no comparison panics, and `a == b` holds exactly when `a` and `b` are the same value, so
that no element is a NaN), and every order of the two `range` loops, `DiffSlices(A, B)`
returns two lists `removed` and `added` such that an element occurs in `removed` iff it
is in `A` and in `B`, and occurs in `added` iff it is in `B` and in `A`. -/
theorem DiffSlicesCmp_common_elements {T : Type} [DecidableEq T] (cmp : Comparable T)
    (ordA ordB : RangeOrder T) (A B : List T)
    (hexact : ∀ a ∈ A ++ B, ∀ b ∈ A ++ B, cmp.eq a b = some (decide (a = b))) :
    ∃ removed added : List T,
      DiffSlicesCmp cmp ordA ordB A B = some (removed, added) ∧
      (∀ x, x ∈ removed ↔ x ∈ A ∧ x ∈ B) ∧
      (∀ x, x ∈ added ↔ x ∈ B ∧ x ∈ A) :=
  ⟨(DiffSlices ordA ordB A B).1, (DiffSlices ordA ordB A B).2,
    DiffSlicesCmp_eq_DiffSlices cmp ordA ordB A B hexact,
    fun x => mem_DiffSlices_fst ordA ordB A B x,
    fun x => mem_DiffSlices_snd ordA ordB A B x⟩

/-- C2, amended, at the `float64` slices `[1.0, 2.0, 2.0]` and `[2.0, 3.0]`, which hold
no NaN: both results are `[2.0]`. -/
theorem DiffSlicesCmp_common_elements_witness :
    DiffSlicesCmp Comparable.float64 (RangeOrder.stored _) (RangeOrder.reversed _)
      [.number 1, .number 2, .number 2] [.number 2, .number 3]
      = some ([.number 2], [.number 2]) ∧
    ∃ removed added : List Float64Value,
      DiffSlicesCmp Comparable.float64 (RangeOrder.stored _) (RangeOrder.reversed _)
        [.number 1, .number 2, .number 2] [.number 2, .number 3] = some (removed, added) ∧
      (∀ x, x ∈ removed ↔
        x ∈ [Float64Value.number 1, .number 2, .number 2] ∧
        x ∈ [Float64Value.number 2, .number 3]) ∧
      (∀ x, x ∈ added ↔
        x ∈ [Float64Value.number 2, .number 3] ∧
        x ∈ [Float64Value.number 1, .number 2, .number 2]) :=
  ⟨by decide,
   DiffSlicesCmp_common_elements Comparable.float64 (RangeOrder.stored _) (RangeOrder.reversed _)
     [.number 1, .number 2, .number 2] [.number 2, .number 3]
     (by
       intro a ha b hb
       simp only [List.cons_append, List.nil_append, List.mem_cons, List.mem_singleton,
         List.mem_nil_iff, or_false] at ha hb
       rcases ha with rfl | rfl | rfl | rfl | rfl <;>
         rcases hb with rfl | rfl | rfl | rfl | rfl <;> simp [Comparable.float64])⟩

/-- C3: swapping the arguments of `DiffSlices` swaps its results, up to order: whatever
the orders of the `range` loops in the two calls, the first result of `DiffSlices(B, A)`
is a rearrangement of the second result of `DiffSlices(A, B)`, and the second result of
`DiffSlices(B, A)` is a rearrangement of the first result of `DiffSlices(A, B)`. -/
theorem DiffSlices_swap {T : Type} [DecidableEq T] (ordA ordB ordA' ordB' : RangeOrder T)
    (A B : List T) :
    (DiffSlices ordA' ordB' B A).1.Perm (DiffSlices ordA ordB A B).2 ∧
    (DiffSlices ordA' ordB' B A).2.Perm (DiffSlices ordA ordB A B).1 := by
  constructor
  · rw [List.perm_ext_iff_of_nodup (nodup_DiffSlices_fst _ _ _ _) (nodup_DiffSlices_snd _ _ _ _)]
    intro x
    rw [mem_DiffSlices_fst, mem_DiffSlices_snd]
  · rw [List.perm_ext_iff_of_nodup (nodup_DiffSlices_snd _ _ _ _) (nodup_DiffSlices_fst _ _ _ _)]
    intro x
    rw [mem_DiffSlices_fst, mem_DiffSlices_snd]

/-- C4: each list returned by `DiffSlices(A, B)` contains no element more than once, and
the results depend on which elements occur in `A` and in `B`, not on how often: when
`A'` has the same elements as `A` and `B'` the same elements as `B` (each element
repeated any number of times, anywhere), the results for `A'`, `B'` are rearrangements
of the results for `A`, `B`. -/
theorem DiffSlices_presence_only {T : Type} [DecidableEq T]
    (ordA ordB ordA' ordB' : RangeOrder T) (A B A' B' : List T)
    (hA : ∀ x, x ∈ A' ↔ x ∈ A) (hB : ∀ x, x ∈ B' ↔ x ∈ B) :
    (DiffSlices ordA ordB A B).1.Nodup ∧ (DiffSlices ordA ordB A B).2.Nodup ∧
    (DiffSlices ordA' ordB' A' B').1.Perm (DiffSlices ordA ordB A B).1 ∧
    (DiffSlices ordA' ordB' A' B').2.Perm (DiffSlices ordA ordB A B).2 := by
  refine ⟨nodup_DiffSlices_fst _ _ _ _, nodup_DiffSlices_snd _ _ _ _, ?_, ?_⟩
  · rw [List.perm_ext_iff_of_nodup (nodup_DiffSlices_fst _ _ _ _) (nodup_DiffSlices_fst _ _ _ _)]
    intro x
    rw [mem_DiffSlices_fst, mem_DiffSlices_fst, hA, hB]
  · rw [List.perm_ext_iff_of_nodup (nodup_DiffSlices_snd _ _ _ _) (nodup_DiffSlices_snd _ _ _ _)]
    intro x
    rw [mem_DiffSlices_snd, mem_DiffSlices_snd, hA, hB]

/-- C4 at `A = [1, 2, 3]`, `B = [2, 3, 0]` and the same elements repeated,
`A' = [1, 1, 2, 3, 3, 3, 2]`, `B' = [0, 2, 2, 3]`. -/
theorem DiffSlices_presence_only_witness :
    ((∀ x : Fin 4, x ∈ [1, 1, 2, 3, 3, 3, 2] ↔ x ∈ [1, 2, 3]) ∧
     (∀ x : Fin 4, x ∈ [0, 2, 2, 3] ↔ x ∈ [2, 3, 0])) ∧
    ((DiffSlices (RangeOrder.stored (Fin 4)) (RangeOrder.reversed (Fin 4))
        [1, 2, 3] [2, 3, 0]).1.Nodup ∧
     (DiffSlices (RangeOrder.stored (Fin 4)) (RangeOrder.reversed (Fin 4))
        [1, 2, 3] [2, 3, 0]).2.Nodup ∧
     (DiffSlices (RangeOrder.reversed (Fin 4)) (RangeOrder.stored (Fin 4))
        [1, 1, 2, 3, 3, 3, 2] [0, 2, 2, 3]).1.Perm
       (DiffSlices (RangeOrder.stored (Fin 4)) (RangeOrder.reversed (Fin 4))
        [1, 2, 3] [2, 3, 0]).1 ∧
     (DiffSlices (RangeOrder.reversed (Fin 4)) (RangeOrder.stored (Fin 4))
        [1, 1, 2, 3, 3, 3, 2] [0, 2, 2, 3]).2.Perm
       (DiffSlices (RangeOrder.stored (Fin 4)) (RangeOrder.reversed (Fin 4))
        [1, 2, 3] [2, 3, 0]).2) :=
  ⟨⟨by decide, by decide⟩,
   DiffSlices_presence_only (RangeOrder.stored (Fin 4)) (RangeOrder.reversed (Fin 4))
     (RangeOrder.reversed (Fin 4)) (RangeOrder.stored (Fin 4))
     [1, 2, 3] [2, 3, 0] [1, 1, 2, 3, 3, 3, 2] [0, 2, 2, 3] (by decide) (by decide)⟩

/-! ## Lemmas on the order of strings and on sorting -/

theorem stringLess_cons_cons (x y : Byte) (xs ys : GoString) :
    stringLess (x :: xs) (y :: ys) = true ↔ x < y ∨ (x = y ∧ stringLess xs ys = true) := by
  simp only [stringLess]
  rcases lt_trichotomy x y with h | h | h
  · simp [h]
  · subst h; simp
  · simp [h, not_lt_of_gt h, ne_of_gt h]

theorem stringLess_irrefl (a : GoString) : stringLess a a = false := by
  induction a with
  | nil => rfl
  | cons x xs ih =>
    cases hxs : stringLess (x :: xs) (x :: xs) with
    | false => rfl
    | true =>
      rcases (stringLess_cons_cons x x xs xs).mp hxs with h | ⟨_, h⟩
      · exact absurd h (lt_irrefl x)
      · rw [ih] at h; exact absurd h (by decide)

theorem stringLess_trans (a b c : GoString) (hab : stringLess a b = true)
    (hbc : stringLess b c = true) : stringLess a c = true := by
  induction a generalizing b c with
  | nil =>
    cases b with
    | nil => simp [stringLess] at hab
    | cons y ys =>
      cases c with
      | nil => simp [stringLess] at hbc
      | cons z zs => rfl
  | cons x xs ih =>
    cases b with
    | nil => simp [stringLess] at hab
    | cons y ys =>
      cases c with
      | nil => simp [stringLess] at hbc
      | cons z zs =>
        rw [stringLess_cons_cons] at hab hbc ⊢
        rcases hab with h1 | ⟨h1, h1'⟩
        · rcases hbc with h2 | ⟨h2, _⟩
          · exact Or.inl (lt_trans h1 h2)
          · exact Or.inl (h2 ▸ h1)
        · rcases hbc with h2 | ⟨h2, h2'⟩
          · exact Or.inl (h1 ▸ h2)
          · exact Or.inr ⟨h1.trans h2, ih ys zs h1' h2'⟩

theorem stringLess_trichotomy (a b : GoString) :
    stringLess a b = true ∨ a = b ∨ stringLess b a = true := by
  induction a generalizing b with
  | nil =>
    cases b with
    | nil => exact Or.inr (Or.inl rfl)
    | cons y ys => exact Or.inl rfl
  | cons x xs ih =>
    cases b with
    | nil => exact Or.inr (Or.inr rfl)
    | cons y ys =>
      rw [stringLess_cons_cons, stringLess_cons_cons]
      rcases lt_trichotomy x y with h | h | h
      · exact Or.inl (Or.inl h)
      · rcases ih ys with h' | h' | h'
        · exact Or.inl (Or.inr ⟨h, h'⟩)
        · exact Or.inr (Or.inl (by rw [h, h']))
        · exact Or.inr (Or.inr (Or.inr ⟨h.symm, h'⟩))
      · exact Or.inr (Or.inr (Or.inl h))

theorem stringLess_asymm (a b : GoString) (hab : stringLess a b = true) :
    stringLess b a = false := by
  cases hba : stringLess b a with
  | false => rfl
  | true =>
    have := stringLess_trans a b a hab hba
    rw [stringLess_irrefl] at this
    exact absurd this (by decide)

theorem stringLE_total (a b : GoString) :
    stringLess b a = false ∨ stringLess a b = false := by
  cases hba : stringLess b a with
  | false => exact Or.inl rfl
  | true => exact Or.inr (stringLess_asymm b a hba)

theorem stringLE_trans (a b c : GoString) (hab : stringLess b a = false)
    (hbc : stringLess c b = false) : stringLess c a = false := by
  cases hca : stringLess c a with
  | false => rfl
  | true =>
    rcases stringLess_trichotomy a b with h | h | h
    · rw [stringLess_trans c a b hca h] at hbc; exact absurd hbc (by decide)
    · rw [← h, hca] at hbc; exact absurd hbc (by decide)
    · rw [h] at hab; exact absurd hab (by decide)

theorem stringLE_antisymm (a b : GoString) (hab : stringLess b a = false)
    (hba : stringLess a b = false) : a = b := by
  rcases stringLess_trichotomy a b with h | h | h
  · rw [h] at hba; exact absurd hba (by decide)
  · exact h
  · rw [h] at hab; exact absurd hab (by decide)

theorem sortStrings_perm (l : List GoString) : (sortStrings l).Perm l :=
  List.perm_insertionSort _ l

theorem sortStrings_sorted (l : List GoString) :
    (sortStrings l).Pairwise (fun a b => stringLess b a = false) := by
  haveI : IsTotal GoString (fun a b => stringLess b a = false) := ⟨stringLE_total⟩
  haveI : IsTrans GoString (fun a b => stringLess b a = false) := ⟨stringLE_trans⟩
  exact List.sorted_insertionSort _ l

/-- Sorting does not depend on the arrangement of its input. -/
theorem sortStrings_eq_of_perm (l₁ l₂ : List GoString) (h : l₁.Perm l₂) :
    sortStrings l₁ = sortStrings l₂ := by
  haveI : IsAntisymm GoString (fun a b => stringLess b a = false) := ⟨stringLE_antisymm⟩
  exact List.eq_of_perm_of_sorted
    ((sortStrings_perm l₁).trans (h.trans (sortStrings_perm l₂).symm))
    (sortStrings_sorted l₁) (sortStrings_sorted l₂)

/-- A sorted slice without repetition is strictly increasing. -/
theorem sortStrings_strict (l : List GoString) (hnd : l.Nodup) :
    (sortStrings l).Pairwise (fun a b => stringLess a b = true) := by
  have hnd' : (sortStrings l).Pairwise (fun a b => a ≠ b) :=
    (sortStrings_perm l).nodup_iff.mpr hnd
  refine ((sortStrings_sorted l).and hnd').imp ?_
  intro a b hab
  rcases stringLess_trichotomy a b with h | h | h
  · exact h
  · exact absurd h hab.2
  · rw [h] at hab; exact absurd hab.1 (by decide)

/-! ## Lemmas on SortMapKeys -/

theorem foldl_append_each {T : Type} (l init : List T) :
    l.foldl (fun keys key => keys ++ [key]) init = init ++ l := by
  induction l generalizing init with
  | nil => simp
  | cons a rest ih => rw [List.foldl_cons, ih]; simp

theorem SortMapKeys_eq {T : Type} (ord : RangeOrder GoString) (m : GoMap GoString T) :
    SortMapKeys ord m = sortStrings (m.range ord) := by
  simp only [SortMapKeys, foldl_append_each, List.nil_append]

theorem SortMapKeys_perm {T : Type} (ord : RangeOrder GoString) (m : GoMap GoString T) :
    (SortMapKeys ord m).Perm m.keys := by
  rw [SortMapKeys_eq]
  exact (sortStrings_perm _).trans (GoMap.range_perm ord m)

theorem SortMapKeys_eq_sort_keys {T : Type} (ord : RangeOrder GoString)
    (m : GoMap GoString T) : SortMapKeys ord m = sortStrings m.keys := by
  rw [SortMapKeys_eq]
  exact sortStrings_eq_of_perm _ _ (GoMap.range_perm ord m)

/-- An element of a list without repetition occurs in it once. -/
theorem occurrences_eq_one {T : Type} [DecidableEq T] (l : List T) (s : T) (hnd : l.Nodup)
    (hs : s ∈ l) : (l.filter (fun k => decide (k = s))).length = 1 := by
  induction l with
  | nil => simp at hs
  | cons a rest ih =>
    rw [List.nodup_cons] at hnd
    by_cases ha : a = s
    · subst ha
      have hnone : rest.filter (fun k => decide (k = a)) = [] := by
        apply List.eq_nil_iff_forall_not_mem.mpr
        intro x hx
        rw [List.mem_filter] at hx
        have hxa : x = a := by simpa using hx.2
        exact hnd.1 (hxa ▸ hx.1)
      simp [List.filter_cons, hnone]
    · have hs' : s ∈ rest := by
        rcases List.mem_cons.mp hs with h | h
        · exact absurd h.symm ha
        · exact h
      simp [List.filter_cons, ha, ih hnd.2 hs']

/-! ## SortMapKeys: the claims -/

/-- C5: for every map `m` with string keys and every order of the `range` loop,
`SortMapKeys(m)` has as many elements as `m` has keys, a string occurs in it iff it is a
key of `m`, no string occurs twice (every key occurs exactly once), and the empty map
gives the empty sequence. -/
theorem SortMapKeys_every_key_once {T : Type} (ord : RangeOrder GoString)
    (m : GoMap GoString T) :
    (SortMapKeys ord m).length = m.len ∧
    (∀ s, s ∈ SortMapKeys ord m ↔ s ∈ m.keys) ∧
    (SortMapKeys ord m).Nodup ∧
    (∀ s, s ∈ m.keys → ((SortMapKeys ord m).filter (fun k => decide (k = s))).length = 1) ∧
    SortMapKeys ord (GoMap.make : GoMap GoString T) = [] := by
  have hperm := SortMapKeys_perm ord m
  have hnd : (SortMapKeys ord m).Nodup := hperm.nodup_iff.mpr m.keys_nodup
  refine ⟨?_, fun s => hperm.mem_iff, hnd, ?_, ?_⟩
  · rw [hperm.length_eq]; simp [GoMap.keys, GoMap.len]
  · intro s hs
    exact occurrences_eq_one _ s hnd (hperm.mem_iff.mpr hs)
  · exact List.Perm.eq_nil (SortMapKeys_perm ord (GoMap.make : GoMap GoString T))

/-- C6: for every map `m` with string keys and every order of the `range` loop,
`SortMapKeys(m)` is strictly ascending for the byte-wise order of strings: every element
is less than the element after it, and less than every later element.  `"B"` is less
than `"a"`, so the keys of `{"a": 1, "B": 2}` come out as `["B", "a"]`; and the keys of
`{"b": 1, "a": 2}` come out as `["a", "b"]`. -/
theorem SortMapKeys_strictly_ascending {T : Type} (ord : RangeOrder GoString)
    (m : GoMap GoString T) :
    (SortMapKeys ord m).Chain' (fun a b => stringLess a b = true) ∧
    (SortMapKeys ord m).Pairwise (fun a b => stringLess a b = true) ∧
    stringLess (ascii "B") (ascii "a") = true ∧
    SortMapKeys ord (((GoMap.make : GoMap GoString Nat).set (ascii "a") 1).set (ascii "B") 2)
      = [ascii "B", ascii "a"] ∧
    SortMapKeys ord (((GoMap.make : GoMap GoString Nat).set (ascii "b") 1).set (ascii "a") 2)
      = [ascii "a", ascii "b"] := by
  have hstrict : (SortMapKeys ord m).Pairwise (fun a b => stringLess a b = true) := by
    rw [SortMapKeys_eq]
    exact sortStrings_strict _ (GoMap.range_nodup ord m)
  refine ⟨hstrict.chain', hstrict, by decide, ?_, ?_⟩
  · rw [SortMapKeys_eq_sort_keys]; decide
  · rw [SortMapKeys_eq_sort_keys]; decide

/-! ## ValueInSlice and HasAnyPrefix: the claims -/

/-- When no comparison panics, `ValueInSlice` returns whether some element is `==` to
the value. -/
theorem ValueInSlice_eq_any {T : Type} (cmp : Comparable T) (x : T) (s : List T)
    (hsafe : ∀ e ∈ s, cmp.eq e x ≠ none) :
    ValueInSlice cmp x s = some (s.any (fun e => cmp.same e x)) := by
  induction s with
  | nil => rfl
  | cons v rest ih =>
    have hrest : ∀ e ∈ rest, cmp.eq e x ≠ none := fun e he => hsafe e (List.mem_cons_of_mem _ he)
    have hv := hsafe v (List.mem_cons_self _ _)
    cases hcmp : cmp.eq v x with
    | none => exact absurd hcmp hv
    | some r =>
      cases r with
      | true => simp [ValueInSlice, hcmp, Comparable.same]
      | false => simp [ValueInSlice, hcmp, Comparable.same, ih hrest]

theorem any_same_iff {T : Type} (cmp : Comparable T) (x : T) (s : List T) :
    s.any (fun e => cmp.same e x) = true ↔ ∃ e ∈ s, cmp.eq e x = some true := by
  simp [List.any_eq_true, Comparable.same]

/-- C7 as stated fails: for the `float64` value NaN, `ValueInSlice(NaN, [NaN])` is
false, since `NaN == NaN` is false. -/
theorem ValueInSlice_nan_not_found :
    ValueInSlice Comparable.float64 Float64Value.nan [Float64Value.nan] = some false := by
  rfl

/-- C7, amended: for every value `x` and every slice `s` of a comparable type such that
no comparison of an element of `s` with `x` panics, `ValueInSlice(x, s)` returns, and it
is true iff some element `e` of `s` satisfies `e == x`; the result is the same for every
rearrangement of `s`; `ValueInSlice(x, [])` is false; and `ValueInSlice(x, [x])` is true
whenever `x == x` holds. -/
theorem ValueInSlice_iff_some_element {T : Type} (cmp : Comparable T) (x : T) (s : List T)
    (hsafe : ∀ e ∈ s, cmp.eq e x ≠ none) :
    (ValueInSlice cmp x s = some true ↔ ∃ e ∈ s, cmp.eq e x = some true) ∧
    (ValueInSlice cmp x s = some false ↔ ¬ ∃ e ∈ s, cmp.eq e x = some true) ∧
    (∀ s' : List T, s'.Perm s → ValueInSlice cmp x s' = ValueInSlice cmp x s) ∧
    ValueInSlice cmp x [] = some false ∧
    (cmp.eq x x = some true → ValueInSlice cmp x [x] = some true) := by
  refine ⟨?_, ?_, ?_, rfl, ?_⟩
  · rw [ValueInSlice_eq_any cmp x s hsafe, Option.some.injEq]
    exact any_same_iff cmp x s
  · rw [ValueInSlice_eq_any cmp x s hsafe, Option.some.injEq, ← any_same_iff cmp x s]
    cases s.any (fun e => cmp.same e x) <;> simp
  · intro s' hperm
    have hsafe' : ∀ e ∈ s', cmp.eq e x ≠ none := fun e he => hsafe e (hperm.mem_iff.mp he)
    rw [ValueInSlice_eq_any cmp x s hsafe, ValueInSlice_eq_any cmp x s' hsafe',
      Option.some.injEq, Bool.eq_iff_iff, any_same_iff, any_same_iff]
    constructor
    · rintro ⟨e, he, h⟩; exact ⟨e, hperm.mem_iff.mp he, h⟩
    · rintro ⟨e, he, h⟩; exact ⟨e, hperm.mem_iff.mpr he, h⟩
  · intro hx
    simp [ValueInSlice, hx]

/-- C7, amended, at `float64` slices without NaN and at a slice of integers: `2.0` is
found in `[3.0, 2.0, 1.0]` and in its rearrangement `[1.0, 2.0, 3.0]`, and `2` is found
in `[2]`. -/
theorem ValueInSlice_iff_some_element_witness :
    ValueInSlice Comparable.float64 (.number 2) [.number 3, .number 2, .number 1] =
      ValueInSlice Comparable.float64 (.number 2) [.number 1, .number 2, .number 3] ∧
    ValueInSlice (Comparable.exact Nat) 2 [2] = some true :=
  ⟨(ValueInSlice_iff_some_element Comparable.float64 (.number 2)
      [.number 1, .number 2, .number 3]
      (by intro e _; cases e <;> simp [Comparable.float64])).2.2.1
      [.number 3, .number 2, .number 1]
      ((List.reverse_perm [Float64Value.number 1, .number 2, .number 3])),
   (ValueInSlice_iff_some_element (Comparable.exact Nat) 2 [2]
      (by intro e _; simp [Comparable.exact])).2.2.2.2 rfl⟩

theorem HasPrefix_eq_true_iff (s pre : GoString) :
    HasPrefix s pre = true ↔ ∃ rest, pre ++ rest = s := by
  simp only [HasPrefix, Bool.and_eq_true, decide_eq_true_eq]
  constructor
  · rintro ⟨_, h⟩
    have hsplit := List.take_append_drop pre.length s
    rw [h] at hsplit
    exact ⟨s.drop pre.length, hsplit⟩
  · rintro ⟨rest, rfl⟩
    exact ⟨by simp, by simp⟩

/-- C8: for every string `value` and every list `prefixes`, `HasAnyPrefix` is true iff
some element `p` of `prefixes` is a prefix of `value` byte for byte (`value` is `p`
followed by some rest); with an empty list it is false.  `HasAnyPrefix("abc", [])` is
false, `HasAnyPrefix("abc", ["a"])` is true, `HasAnyPrefix("abc", ["b"])` and
`HasAnyPrefix("abc", ["A"])` are false. -/
theorem HasAnyPrefix_iff_starts_with_some (value : GoString) (prefixes : List GoString) :
    (HasAnyPrefix value prefixes = true ↔ ∃ p ∈ prefixes, ∃ rest, p ++ rest = value) ∧
    HasAnyPrefix value [] = false ∧
    HasAnyPrefix (ascii "abc") [] = false ∧
    HasAnyPrefix (ascii "abc") [ascii "a"] = true ∧
    HasAnyPrefix (ascii "abc") [ascii "b"] = false ∧
    HasAnyPrefix (ascii "abc") [ascii "A"] = false := by
  refine ⟨?_, rfl, by decide, by decide, by decide, by decide⟩
  induction prefixes with
  | nil => simp [HasAnyPrefix]
  | cons p rest ih =>
    by_cases hp : HasPrefix value p = true
    · simp only [HasAnyPrefix, hp, if_true, true_iff]
      exact ⟨p, List.mem_cons_self _ _, (HasPrefix_eq_true_iff value p).mp hp⟩
    · simp only [HasAnyPrefix, hp, if_false, ih, Bool.false_eq_true]
      constructor
      · rintro ⟨q, hq, hrest⟩
        exact ⟨q, List.mem_cons_of_mem _ hq, hrest⟩
      · rintro ⟨q, hq, hrest⟩
        rcases List.mem_cons.mp hq with h | h
        · exact absurd ((HasPrefix_eq_true_iff value p).mpr (h ▸ hrest)) hp
        · exact ⟨q, h, hrest⟩

/-! ## CheckVersion: the claims -/

set_option maxRecDepth 8000

theorem quoteBody_plainASCII (nonASCII : GoString → GoString) (s : GoString)
    (hs : plainASCII s) : quoteBody nonASCII s = s := by
  induction s with
  | nil => rfl
  | cons b rest ih =>
    have hb := hs b (List.mem_cons_self _ _)
    have hrest : plainASCII rest := fun x hx => hs x (List.mem_cons_of_mem _ hx)
    have hlt : b < 0x80 := lt_trans hb.2.1 (by decide)
    have hq : quoteByte b = [b] := by
      unfold quoteByte
      rw [if_neg (by rintro (h | h); exact hb.2.2.1 h; exact hb.2.2.2 h),
        if_pos ⟨hb.1, hb.2.1⟩]
    simp only [quoteBody, hlt, if_true, hq, ih hrest, List.singleton_append]

theorem infix_Quote_of_plainASCII (nonASCII : GoString → GoString) (s : GoString)
    (hs : plainASCII s) : s <:+: Quote nonASCII s := by
  unfold Quote
  rw [quoteBody_plainASCII nonASCII s hs]
  exact ⟨[0x22], [0x22], rfl⟩

theorem infix_message (head body sep tail : GoString) :
    body <:+: head ++ body ++ sep ++ tail :=
  ⟨head, sep ++ tail, by simp [List.append_assoc]⟩

/-- C9: for every behaviour of the version library and all strings `v` and `c`,
`CheckVersion(v, c)` returns an error iff `v` fails to parse as a version or `c` fails
to parse as a constraint; whenever it returns an error the boolean is false; and when
both parse it returns `(constraint.Check(version), nil)`. -/
theorem CheckVersion_error_iff_parse_failure (lib : VersionLib)
    (nonASCII : GoString → GoString) (v c : GoString) :
    ((CheckVersion lib nonASCII v c).2 ≠ none ↔
      (∃ e, lib.NewVersion v = .error e) ∨ (∃ e, lib.NewConstraint c = .error e)) ∧
    ((CheckVersion lib nonASCII v c).2 ≠ none → (CheckVersion lib nonASCII v c).1 = false) ∧
    (∀ ver con, lib.NewVersion v = .ok ver → lib.NewConstraint c = .ok con →
      CheckVersion lib nonASCII v c = (lib.Check con ver, none)) := by
  unfold CheckVersion
  cases hv : lib.NewVersion v with
  | error e => simp
  | ok ver =>
    cases hc : lib.NewConstraint c with
    | error e => simp
    | ok con => simp

/-- C9 at the version `not-a-version` with the constraint `*` (an error, and the boolean
is false) and at the version `1.0.0` with the constraint `>=1.0.0` (both parse). -/
theorem CheckVersion_error_iff_parse_failure_witness :
    (CheckVersion exampleLib (fun s => s) (ascii "not-a-version") (ascii "*")).2 ≠ none ∧
    (CheckVersion exampleLib (fun s => s) (ascii "not-a-version") (ascii "*")).1 = false ∧
    CheckVersion exampleLib (fun s => s) (ascii "1.0.0") (ascii ">=1.0.0") = (true, none) :=
  ⟨by decide,
   (CheckVersion_error_iff_parse_failure exampleLib (fun s => s)
      (ascii "not-a-version") (ascii "*")).2.1 (by decide),
   (CheckVersion_error_iff_parse_failure exampleLib (fun s => s)
      (ascii "1.0.0") (ascii ">=1.0.0")).2.2 () () rfl rfl⟩

/-- C10 as stated fails: for the version `1.0.0` and the constraint `a"b,x`, whose first
clause `a"b` is malformed, the message is
`Unable to parse version constraint "a\"b,x": Malformed constraint: a"b`.  The verb `%q`
has written the quote inside the constraint with a backslash in front, and the text
`a"b,x` is not a substring of the message. -/
theorem CheckVersion_constraint_not_verbatim :
    CheckVersion exampleLib (fun s => s) (ascii "1.0.0") (ascii "a\"b,x") =
      (false, some (ascii
        "Unable to parse version constraint \"a\\\"b,x\": Malformed constraint: a\"b")) ∧
    ¬ (ascii "a\"b,x" <:+: ascii
        "Unable to parse version constraint \"a\\\"b,x\": Malformed constraint: a\"b") := by
  decide

/-- C10, amended: whenever `CheckVersion` returns an error, with message `msg`, the
message contains the offending input as `%q` writes it (`strconv.Quote`): the quoted
version string when the version fails to parse, and otherwise the constraint has failed
to parse and the message contains the quoted constraint string.  When the offending
input consists of printable ASCII characters other than `"` and `\`, it is itself a
substring of the message. -/
theorem CheckVersion_error_quotes_input (lib : VersionLib) (nonASCII : GoString → GoString)
    (v c msg : GoString) (herr : (CheckVersion lib nonASCII v c).2 = some msg) :
    ((∃ e, lib.NewVersion v = .error e) →
      Quote nonASCII v <:+: msg ∧ (plainASCII v → v <:+: msg)) ∧
    ((∃ ver, lib.NewVersion v = .ok ver) →
      (∃ e, lib.NewConstraint c = .error e) ∧
      Quote nonASCII c <:+: msg ∧ (plainASCII c → c <:+: msg)) := by
  unfold CheckVersion at herr
  cases hv : lib.NewVersion v with
  | error e =>
    rw [hv] at herr
    simp only [Option.some.injEq] at herr
    subst herr
    refine ⟨fun _ => ⟨infix_message _ _ _ _, fun hp => ?_⟩, ?_⟩
    · exact (infix_Quote_of_plainASCII nonASCII v hp).trans (infix_message _ _ _ _)
    · rintro ⟨ver, hver⟩; cases hver
  | ok ver =>
    rw [hv] at herr
    cases hc : lib.NewConstraint c with
    | error e =>
      rw [hc] at herr
      simp only [Option.some.injEq] at herr
      subst herr
      refine ⟨?_, fun _ => ⟨⟨e, rfl⟩, infix_message _ _ _ _, fun hp => ?_⟩⟩
      · rintro ⟨e', he'⟩; cases he'
      · exact (infix_Quote_of_plainASCII nonASCII c hp).trans (infix_message _ _ _ _)
    | ok con =>
      rw [hc] at herr
      cases herr

/-- C10, amended, at the version `not-a-version` with the constraint `*`: the message is
`Unable to parse version "not-a-version": Malformed version: not-a-version`. -/
theorem CheckVersion_error_quotes_input_witness :
    (CheckVersion exampleLib (fun s => s) (ascii "not-a-version") (ascii "*")).2 =
      some (ascii "Unable to parse version \"not-a-version\": Malformed version: not-a-version") ∧
    Quote (fun s => s) (ascii "not-a-version") <:+:
      ascii "Unable to parse version \"not-a-version\": Malformed version: not-a-version" ∧
    ascii "not-a-version" <:+:
      ascii "Unable to parse version \"not-a-version\": Malformed version: not-a-version" :=
  ⟨by decide,
   ((CheckVersion_error_quotes_input exampleLib (fun s => s) (ascii "not-a-version")
      (ascii "*") _ (by decide)).1 ⟨_, rfl⟩).1,
   ((CheckVersion_error_quotes_input exampleLib (fun s => s) (ascii "not-a-version")
      (ascii "*") _ (by decide)).1 ⟨_, rfl⟩).2 (by unfold plainASCII; decide)⟩

/-! ## SortMapKeys, CheckVersion, HasAnyPrefix: further claims -/

/-- C18: `SortMapKeys` depends on the set of keys alone: for two maps `m₁` and `m₂`, of
possibly different value types, with the same keys, `SortMapKeys(m₁)` and
`SortMapKeys(m₂)` are the same sequence, whatever the values, the order in which the
entries are stored and the order in which each `range` loop visits the keys. -/
theorem SortMapKeys_depends_on_key_set {T₁ T₂ : Type} (ord₁ ord₂ : RangeOrder GoString)
    (m₁ : GoMap GoString T₁) (m₂ : GoMap GoString T₂)
    (hkeys : ∀ k, k ∈ m₁.keys ↔ k ∈ m₂.keys) :
    SortMapKeys ord₁ m₁ = SortMapKeys ord₂ m₂ := by
  rw [SortMapKeys_eq_sort_keys, SortMapKeys_eq_sort_keys]
  exact sortStrings_eq_of_perm _ _
    ((List.perm_ext_iff_of_nodup m₁.keys_nodup m₂.keys_nodup).mpr hkeys)

/-- C18 at the maps `{"b": 1, "a": 2}` and `{"a": true, "b": false}`, the first visited
as stored and the second in reverse. -/
theorem SortMapKeys_depends_on_key_set_witness :
    (∀ k, k ∈ (⟨[(ascii "b", 1), (ascii "a", 2)], by decide⟩ : GoMap GoString Nat).keys ↔
      k ∈ (⟨[(ascii "a", true), (ascii "b", false)], by decide⟩ : GoMap GoString Bool).keys) ∧
    SortMapKeys (RangeOrder.stored GoString)
        (⟨[(ascii "b", 1), (ascii "a", 2)], by decide⟩ : GoMap GoString Nat) =
      SortMapKeys (RangeOrder.reversed GoString)
        (⟨[(ascii "a", true), (ascii "b", false)], by decide⟩ : GoMap GoString Bool) :=
  ⟨fun k => by simp only [GoMap.keys, List.map, List.mem_cons, List.mem_nil_iff, or_false]; tauto,
   SortMapKeys_depends_on_key_set (RangeOrder.stored GoString) (RangeOrder.reversed GoString)
     ⟨[(ascii "b", 1), (ascii "a", 2)], by decide⟩
     ⟨[(ascii "a", true), (ascii "b", false)], by decide⟩
     (fun k => by
       simp only [GoMap.keys, List.map, List.mem_cons, List.mem_nil_iff, or_false]; tauto)⟩

/-- C19: when the version text fails to parse, `CheckVersion` returns `false` and the
version error, whose message starts with `Unable to parse version` followed by the
quoted version text, and is not the constraint error.  The result is the same for every
constraint text and for every behaviour of the library on constraints: the constraint is
not looked at. -/
theorem CheckVersion_version_error_first (lib : VersionLib) (nonASCII : GoString → GoString)
    (v c e : GoString) (hv : lib.NewVersion v = .error e) :
    CheckVersion lib nonASCII v c =
      (false, some (ascii "Unable to parse version " ++ Quote nonASCII v ++ ascii ": " ++ e)) ∧
    (∀ (c' : GoString) (C : Type) (parse : GoString → Except GoString C)
        (check : C → lib.Version → Bool),
      CheckVersion ⟨lib.Version, C, lib.NewVersion, parse, check⟩ nonASCII v c' =
        CheckVersion lib nonASCII v c) ∧
    (∀ msg, (CheckVersion lib nonASCII v c).2 = some msg →
      ascii "Unable to parse version \"" <+: msg ∧
      ¬ (ascii "Unable to parse version constraint" <+: msg)) := by
  have hres : ∀ (l : VersionLib) (c₀ : GoString), l.NewVersion v = .error e →
      CheckVersion l nonASCII v c₀ =
        (false, some (ascii "Unable to parse version " ++ Quote nonASCII v ++ ascii ": " ++ e)) := by
    intro l c₀ hl
    unfold CheckVersion
    rw [hl]
  refine ⟨hres lib c hv, ?_, ?_⟩
  · intro c' C parse check
    rw [hres lib c hv]
    exact hres ⟨lib.Version, C, lib.NewVersion, parse, check⟩ c' hv
  · intro msg hmsg
    rw [hres lib c hv] at hmsg
    simp only [Option.some.injEq] at hmsg
    have hstart : ascii "Unable to parse version \"" <+: msg := by
      refine ⟨quoteBody nonASCII v ++ [0x22] ++ ascii ": " ++ e, ?_⟩
      rw [← hmsg]
      have hq : ascii "Unable to parse version \"" = ascii "Unable to parse version " ++ [0x22] := by
        decide
      rw [hq]
      simp [Quote, List.append_assoc]
    refine ⟨hstart, fun hcon => ?_⟩
    have hle : (ascii "Unable to parse version \"").length
        ≤ (ascii "Unable to parse version constraint").length := by decide
    have hbad : ascii "Unable to parse version \"" <+: ascii "Unable to parse version constraint" :=
      List.prefix_of_prefix_length_le hstart hcon hle
    exact absurd hbad (by decide)

/-- C19 at `CheckVersion("not-a-version", "*")`: the boolean is `false` and the error is
the version error. -/
theorem CheckVersion_version_error_first_witness :
    exampleLib.NewVersion (ascii "not-a-version")
      = .error (ascii "Malformed version: not-a-version") ∧
    CheckVersion exampleLib (fun s => s) (ascii "not-a-version") (ascii "*") =
      (false, some (ascii "Unable to parse version " ++ Quote (fun s => s) (ascii "not-a-version")
        ++ ascii ": " ++ ascii "Malformed version: not-a-version")) :=
  ⟨rfl,
   (CheckVersion_version_error_first exampleLib (fun s => s) (ascii "not-a-version") (ascii "*")
      (ascii "Malformed version: not-a-version") rfl).1⟩

theorem HasAnyPrefix_eq_true_iff (value : GoString) (prefixes : List GoString) :
    HasAnyPrefix value prefixes = true ↔ ∃ p ∈ prefixes, ∃ rest, p ++ rest = value := by
  induction prefixes with
  | nil => simp [HasAnyPrefix]
  | cons p rest ih =>
    by_cases hp : HasPrefix value p = true
    · simp only [HasAnyPrefix, hp, if_true, true_iff]
      exact ⟨p, List.mem_cons_self _ _, (HasPrefix_eq_true_iff value p).mp hp⟩
    · simp only [HasAnyPrefix, hp, if_false, ih, Bool.false_eq_true]
      constructor
      · rintro ⟨q, hq, hrest⟩
        exact ⟨q, List.mem_cons_of_mem _ hq, hrest⟩
      · rintro ⟨q, hq, hrest⟩
        rcases List.mem_cons.mp hq with h | h
        · exact absurd ((HasPrefix_eq_true_iff value p).mpr (h ▸ hrest)) hp
        · exact ⟨q, h, hrest⟩

/-- C20: if the list of prefixes contains the empty string, `HasAnyPrefix` is true for
every value, the empty value included; and if the value is shorter than every prefix in
the list, `HasAnyPrefix` is false. -/
theorem HasAnyPrefix_empty_and_short (value : GoString) (prefixes : List GoString) :
    (([] : GoString) ∈ prefixes → HasAnyPrefix value prefixes = true) ∧
    (([] : GoString) ∈ prefixes → HasAnyPrefix [] prefixes = true) ∧
    ((∀ p ∈ prefixes, value.length < p.length) → HasAnyPrefix value prefixes = false) := by
  refine ⟨fun h => ?_, fun h => ?_, fun h => ?_⟩
  · exact (HasAnyPrefix_eq_true_iff value prefixes).mpr ⟨[], h, value, rfl⟩
  · exact (HasAnyPrefix_eq_true_iff [] prefixes).mpr ⟨[], h, [], rfl⟩
  · cases hres : HasAnyPrefix value prefixes with
    | false => rfl
    | true =>
      obtain ⟨p, hp, rest, hrest⟩ := (HasAnyPrefix_eq_true_iff value prefixes).mp hres
      have hlen := h p hp
      rw [← hrest, List.length_append] at hlen
      omega

/-- C20 at the value `ab`: with the prefixes `abc` and the empty string the result is
true, with the prefixes `abc` and `xyz`, both longer than the value, it is false. -/
theorem HasAnyPrefix_empty_and_short_witness :
    HasAnyPrefix (ascii "ab") [ascii "abc", []] = true ∧
    HasAnyPrefix [] [ascii "abc", []] = true ∧
    HasAnyPrefix (ascii "ab") [ascii "abc", ascii "xyz"] = false :=
  ⟨(HasAnyPrefix_empty_and_short (ascii "ab") [ascii "abc", []]).1 (by decide),
   (HasAnyPrefix_empty_and_short (ascii "ab") [ascii "abc", []]).2.1 (by decide),
   (HasAnyPrefix_empty_and_short (ascii "ab") [ascii "abc", ascii "xyz"]).2.2 (by decide)⟩

/-! ## testProvider: lemmas -/

section TestProviderLemmas

variable {R P E : Type}

/-- A call that finds the configuration set returns it and changes nothing. -/
theorem testProvider_of_some (a : Ambient R P E) (s : Memory P) (p : Ptr P)
    (hlock : s.testProviderMutex = false) (hset : s.testProviderConfig = some p) :
    testProvider a s = ⟨.returned p, s, [.lock, .unlock]⟩ := by
  obtain ⟨cfg, mtx, n⟩ := s
  simp only at hlock hset
  subst hlock hset
  simp [testProvider, testProviderBody]

/-- A call that finds the configuration unset either panics and leaves the memory as it
was, or returns a pointer and leaves it stored, with the mutex unlocked. -/
theorem testProvider_of_none (a : Ambient R P E) (s : Memory P)
    (hlock : s.testProviderMutex = false) (hnil : s.testProviderConfig = none) :
    (∃ err, (testProvider a s).completion = .panicked err ∧ (testProvider a s).memory = s) ∨
    (∃ p, (testProvider a s).completion = .returned p ∧
      (testProvider a s).memory.testProviderConfig = some p ∧
      (testProvider a s).memory.testProviderMutex = false) := by
  obtain ⟨cfg, mtx, n⟩ := s
  simp only at hlock hnil
  subst hlock hnil
  by_cases hremote : a.Getenv (ascii "INCUS_REMOTE") = []
  · right
    simp [testProvider, testProviderBody, hremote]
  · cases hload : a.LoadConfig [] with
    | error err =>
      left
      simp [testProvider, testProviderBody, hremote, hload]
    | ok base =>
      right
      simp [testProvider, testProviderBody, hremote, hload]

/-- Once the configuration is set, every later call returns it and changes nothing. -/
theorem runCalls_of_some (later : List (Ambient R P E)) (s : Memory P) (p : Ptr P)
    (hlock : s.testProviderMutex = false) (hset : s.testProviderConfig = some p) :
    ∀ o ∈ runCalls later s,
      o.completion = .returned p ∧ o.memory = s ∧ o.effects = [.lock, .unlock] := by
  induction later with
  | nil => intro o ho; simp [runCalls] at ho
  | cons a rest ih =>
    intro o ho
    simp only [runCalls, List.mem_cons] at ho
    rw [testProvider_of_some a s p hlock hset] at ho
    rcases ho with h | h
    · subst h; exact ⟨rfl, rfl, rfl⟩
    · exact ih o h

theorem firstReturned_of_some (later : List (Ambient R P E)) (a : Ambient R P E)
    (s : Memory P) (p : Ptr P) (hret : (testProvider a s).completion = .returned p) :
    firstReturned (runCalls (a :: later) s) = some p := by
  simp only [runCalls, firstReturned, hret]

/-- In a run that starts with the configuration unset, the stored configuration is at
every moment either unset or the pointer returned by the first call that returned. -/
theorem runCalls_invariant (calls : List (Ambient R P E)) (s : Memory P)
    (hlock : s.testProviderMutex = false) (hnil : s.testProviderConfig = none) :
    ∀ o ∈ runCalls calls s,
      o.memory.testProviderConfig = none ∨
      o.memory.testProviderConfig = firstReturned (runCalls calls s) := by
  induction calls generalizing s with
  | nil => intro o ho; simp [runCalls] at ho
  | cons a rest ih =>
    intro o ho
    rcases testProvider_of_none a s hlock hnil with ⟨err, hpanic, hmem⟩ | ⟨p, hret, hstored, hunlocked⟩
    · have hfirst : firstReturned (runCalls (a :: rest) s) = firstReturned (runCalls rest s) := by
        simp only [runCalls, firstReturned, hpanic, hmem]
      simp only [runCalls, List.mem_cons] at ho
      rcases ho with h | h
      · left; rw [h, hmem]; exact hnil
      · rw [hfirst]
        rw [hmem] at h
        exact ih s hlock hnil o h
    · right
      rw [firstReturned_of_some rest a s p hret]
      simp only [runCalls, List.mem_cons] at ho
      rcases ho with h | h
      · rw [h]; exact hstored
      · rw [(runCalls_of_some rest _ p hunlocked hstored o h).2.1]
        exact hstored

end TestProviderLemmas

/-! ## testProvider: the claims -/

/-- C14: once a call of `testProvider` has returned a configuration `p`, every later
call, whatever the environment and the loader are by then, returns the same pointer
`p`, leaves the memory as it is, and does nothing but lock and unlock the mutex: it does
not read `INCUS_REMOTE`, does not call the loader and constructs nothing.  And in every
run from the start of the program the stored configuration is, after every call, either
unset or the pointer returned by the first call that returned. -/
theorem testProvider_returns_same_instance {R P E : Type} (a : Ambient R P E) (s : Memory P)
    (p : Ptr P) (hlock : s.testProviderMutex = false)
    (hret : (testProvider a s).completion = .returned p) (later : List (Ambient R P E)) :
    (∀ o ∈ runCalls later (testProvider a s).memory,
      o.completion = .returned p ∧ o.memory = (testProvider a s).memory ∧
      o.effects = [.lock, .unlock]) ∧
    (∀ (calls : List (Ambient R P E)), ∀ o ∈ runCalls calls (Memory.start P),
      o.memory.testProviderConfig = none ∨
      o.memory.testProviderConfig = firstReturned (runCalls calls (Memory.start P))) := by
  refine ⟨?_, fun calls => runCalls_invariant calls (Memory.start P) rfl rfl⟩
  have hmem : (testProvider a s).memory.testProviderConfig = some p ∧
      (testProvider a s).memory.testProviderMutex = false := by
    cases hcfg : s.testProviderConfig with
    | some q =>
      rw [testProvider_of_some a s q hlock hcfg] at hret ⊢
      simp only [Completion.returned.injEq] at hret
      exact ⟨hret ▸ hcfg, hlock⟩
    | none =>
      rcases testProvider_of_none a s hlock hcfg with ⟨err, hpanic, _⟩ | ⟨q, hq, hstored, hunlocked⟩
      · rw [hpanic] at hret; cases hret
      · rw [hq] at hret
        simp only [Completion.returned.injEq] at hret
        exact ⟨hret ▸ hstored, hunlocked⟩
  exact runCalls_of_some later _ p hmem.2 hmem.1

/-- C14 at a first call with `INCUS_REMOTE` unset, followed by a call with
`INCUS_REMOTE=other` and a call with a configuration file that cannot be read: both
return the pointer of the first call and only lock and unlock the mutex. -/
theorem testProvider_returns_same_instance_witness :
    (testProvider (exampleAmbient [] false) (Memory.start _)).completion =
      .returned ⟨0, (⟨ascii "local", ()⟩, true)⟩ ∧
    (∀ o ∈ runCalls [exampleAmbient (ascii "other") false, exampleAmbient (ascii "other") true]
        (testProvider (exampleAmbient [] false) (Memory.start _)).memory,
      o.completion = .returned ⟨0, (⟨ascii "local", ()⟩, true)⟩ ∧
      o.memory = (testProvider (exampleAmbient [] false) (Memory.start _)).memory ∧
      o.effects = [.lock, .unlock]) :=
  ⟨rfl,
   (testProvider_returns_same_instance (exampleAmbient [] false) (Memory.start _)
      ⟨0, (⟨ascii "local", ()⟩, true)⟩ rfl rfl
      [exampleAmbient (ascii "other") false, exampleAmbient (ascii "other") true]).1⟩

/-- C15: a call of `testProvider` that finds the configuration unset reads
`INCUS_REMOTE`.  If the value is not empty, the loader is called exactly once, with the
empty path, and when it returns a configuration `base` the call constructs, stores and
returns `NewIncusProvider(base with DefaultRemote = the value, true)`.  If the value is
empty (the variable unset or empty), the loader is not called and the call constructs,
stores and returns `NewIncusProvider(DefaultConfig(), true)`. -/
theorem testProvider_first_construction {R P E : Type} (a : Ambient R P E) (s : Memory P)
    (hlock : s.testProviderMutex = false) (hnil : s.testProviderConfig = none) :
    (a.Getenv (ascii "INCUS_REMOTE") ≠ [] →
      (testProvider a s).effects.filter Effect.isLoadConfig = [.loadConfig []] ∧
      ∀ base, a.LoadConfig [] = .ok base →
        testProvider a s =
          ⟨.returned ⟨s.allocated, a.NewIncusProvider
              { base with DefaultRemote := a.Getenv (ascii "INCUS_REMOTE") } true⟩,
            ⟨some ⟨s.allocated, a.NewIncusProvider
              { base with DefaultRemote := a.Getenv (ascii "INCUS_REMOTE") } true⟩,
              false, s.allocated + 1⟩,
            [.lock, .getenv (ascii "INCUS_REMOTE"), .loadConfig [],
              .newIncusProvider true, .unlock]⟩) ∧
    (a.Getenv (ascii "INCUS_REMOTE") = [] →
      testProvider a s =
        ⟨.returned ⟨s.allocated, a.NewIncusProvider a.DefaultConfig true⟩,
          ⟨some ⟨s.allocated, a.NewIncusProvider a.DefaultConfig true⟩, false, s.allocated + 1⟩,
          [.lock, .getenv (ascii "INCUS_REMOTE"), .defaultConfig,
            .newIncusProvider true, .unlock]⟩) := by
  obtain ⟨cfg, mtx, n⟩ := s
  simp only at hlock hnil
  subst hlock hnil
  refine ⟨fun hremote => ⟨?_, fun base hload => ?_⟩, fun hremote => ?_⟩
  · cases hload : a.LoadConfig [] with
    | error err => simp [testProvider, testProviderBody, hremote, hload, Effect.isLoadConfig]
    | ok base => simp [testProvider, testProviderBody, hremote, hload, Effect.isLoadConfig]
  · simp [testProvider, testProviderBody, hremote, hload]
  · simp [testProvider, testProviderBody, hremote]

/-- C15 at the start of the program: with `INCUS_REMOTE=other` the published
configuration is the loaded one with the default remote `other`, with `INCUS_REMOTE`
unset it is the default configuration; the flag is `true` in both. -/
theorem testProvider_first_construction_witness :
    (testProvider (exampleAmbient (ascii "other") false) (Memory.start _)).memory.testProviderConfig
      = some ⟨0, (⟨ascii "other", ()⟩, true)⟩ ∧
    (testProvider (exampleAmbient [] false) (Memory.start _)).memory.testProviderConfig
      = some ⟨0, (⟨ascii "local", ()⟩, true)⟩ :=
  ⟨congrArg (fun o => o.memory.testProviderConfig)
     (((testProvider_first_construction (exampleAmbient (ascii "other") false) (Memory.start _)
        rfl rfl).1 (by decide)).2 ⟨ascii "local", ()⟩ rfl),
   congrArg (fun o => o.memory.testProviderConfig)
     ((testProvider_first_construction (exampleAmbient [] false) (Memory.start _)
        rfl rfl).2 rfl)⟩

/-- C16: if `INCUS_REMOTE` is not empty and the loader fails with `err`, a call of
`testProvider` that finds the configuration unset panics with `err`: it returns
nothing, constructs nothing, and leaves the memory exactly as it was, the configuration
unset and the mutex unlocked.  The next call therefore behaves as a first call: it reads
`INCUS_REMOTE` again and runs the construction again. -/
theorem testProvider_loader_failure {R P E : Type} (a : Ambient R P E) (s : Memory P) (err : E)
    (hlock : s.testProviderMutex = false) (hnil : s.testProviderConfig = none)
    (hremote : a.Getenv (ascii "INCUS_REMOTE") ≠ []) (hload : a.LoadConfig [] = .error err) :
    testProvider a s =
      ⟨.panicked err, s, [.lock, .getenv (ascii "INCUS_REMOTE"), .loadConfig [], .unlock]⟩ ∧
    (testProvider a s).memory.testProviderConfig = none ∧
    (testProvider a s).memory.testProviderMutex = false ∧
    (∀ a' : Ambient R P E,
      testProvider a' (testProvider a s).memory = testProvider a' s ∧
      ∃ rest, (testProvider a' (testProvider a s).memory).effects =
        .lock :: .getenv (ascii "INCUS_REMOTE") :: rest) := by
  have hcall : testProvider a s =
      ⟨.panicked err, s, [.lock, .getenv (ascii "INCUS_REMOTE"), .loadConfig [], .unlock]⟩ := by
    obtain ⟨cfg, mtx, n⟩ := s
    simp only at hlock hnil
    subst hlock hnil
    simp [testProvider, testProviderBody, hremote, hload]
  refine ⟨hcall, ?_, ?_, fun a' => ⟨?_, ?_⟩⟩
  · rw [hcall]; exact hnil
  · rw [hcall]; exact hlock
  · rw [hcall]
  · rw [hcall]
    obtain ⟨cfg, mtx, n⟩ := s
    simp only at hlock hnil
    subst hlock hnil
    by_cases hremote' : a'.Getenv (ascii "INCUS_REMOTE") = []
    · exact ⟨_, by simp [testProvider, testProviderBody, hremote']; rfl⟩
    · cases hload' : a'.LoadConfig [] with
      | error err' => exact ⟨_, by simp [testProvider, testProviderBody, hremote', hload']; rfl⟩
      | ok base => exact ⟨_, by simp [testProvider, testProviderBody, hremote', hload']; rfl⟩

/-- C16 at the start of the program, with `INCUS_REMOTE=other` and a configuration file
that cannot be read: the call panics and the memory is still that of the start; a next
call, once the file can be read, constructs the configuration. -/
theorem testProvider_loader_failure_witness :
    testProvider (exampleAmbient (ascii "other") true) (Memory.start _) =
      ⟨.panicked (ascii "cannot read config"), Memory.start _,
        [.lock, .getenv (ascii "INCUS_REMOTE"), .loadConfig [], .unlock]⟩ ∧
    (testProvider (exampleAmbient (ascii "other") false)
      (testProvider (exampleAmbient (ascii "other") true) (Memory.start _)).memory).completion =
      .returned ⟨0, (⟨ascii "other", ()⟩, true)⟩ :=
  ⟨(testProvider_loader_failure (exampleAmbient (ascii "other") true) (Memory.start _)
      (ascii "cannot read config") rfl rfl (by decide) rfl).1,
   rfl⟩

/-! ## Lemmas on `float64` rounding and on `Duration.Seconds` -/

theorem roundHalfEven_floor_le (q : ℚ) : ⌊q⌋ ≤ roundHalfEven q := by
  unfold roundHalfEven
  split_ifs <;> omega

theorem abs_roundHalfEven_sub_le (q : ℚ) : |(roundHalfEven q : ℚ) - q| ≤ 1 / 2 := by
  have h1 := Int.floor_le q
  have h2 := Int.lt_floor_add_one q
  rw [abs_le]
  unfold roundHalfEven
  split_ifs with ha hb hc
  · constructor <;> linarith
  · push_cast; constructor <;> linarith
  · have : q - ⌊q⌋ = 1 / 2 := le_antisymm (not_lt.mp hb) (not_lt.mp ha)
    constructor <;> linarith
  · have : q - ⌊q⌋ = 1 / 2 := le_antisymm (not_lt.mp hb) (not_lt.mp ha)
    push_cast; constructor <;> linarith

theorem roundHalfEven_intCast (m : ℤ) : roundHalfEven (m : ℚ) = m := by
  unfold roundHalfEven
  rw [Int.floor_intCast]
  norm_num

theorem le_roundHalfEven (m : ℤ) (q : ℚ) (h : (m : ℚ) ≤ q) : m ≤ roundHalfEven q :=
  le_trans (Int.le_floor.mpr h) (roundHalfEven_floor_le q)

theorem roundHalfEven_eq_of_abs_lt (q : ℚ) (m : ℤ) (h : |q - m| < 1 / 2) :
    roundHalfEven q = m := by
  have h1 := abs_roundHalfEven_sub_le q
  rw [abs_lt] at h
  rw [abs_le] at h1
  have hlt : ((roundHalfEven q : ℤ) : ℚ) < m + 1 := by linarith
  have hgt : (m : ℚ) - 1 < roundHalfEven q := by linarith
  have hlt' : roundHalfEven q < m + 1 := by exact_mod_cast hlt
  have hgt' : m - 1 < roundHalfEven q := by exact_mod_cast hgt
  omega

theorem ulp_pos (e : ℤ) : (0 : ℚ) < 2 ^ e := zpow_pos (by norm_num) e

theorem abs_roundPositive_sub_le (x : ℚ) :
    |roundPositive x - x| ≤ 2 ^ (Int.log 2 x - 52) / 2 := by
  unfold roundPositive
  have hu := ulp_pos (Int.log 2 x - 52)
  have h := abs_roundHalfEven_sub_le (x / 2 ^ (Int.log 2 x - 52))
  have heq : (roundHalfEven (x / 2 ^ (Int.log 2 x - 52)) : ℚ) * 2 ^ (Int.log 2 x - 52) - x
      = ((roundHalfEven (x / 2 ^ (Int.log 2 x - 52)) : ℚ) - x / 2 ^ (Int.log 2 x - 52))
        * 2 ^ (Int.log 2 x - 52) := by
    field_simp
  rw [heq, abs_mul, abs_of_pos hu]
  calc |(roundHalfEven (x / 2 ^ (Int.log 2 x - 52)) : ℚ) - x / 2 ^ (Int.log 2 x - 52)|
        * 2 ^ (Int.log 2 x - 52)
      ≤ 1 / 2 * 2 ^ (Int.log 2 x - 52) := mul_le_mul_of_nonneg_right h hu.le
    _ = 2 ^ (Int.log 2 x - 52) / 2 := by ring

theorem roundPositive_nonneg (x : ℚ) (hx : 0 ≤ x) : 0 ≤ roundPositive x := by
  unfold roundPositive
  have hu := ulp_pos (Int.log 2 x - 52)
  have h0 : ((0 : ℤ) : ℚ) ≤ x / 2 ^ (Int.log 2 x - 52) := by
    simp only [Int.cast_zero]; exact div_nonneg hx hu.le
  have := le_roundHalfEven 0 _ h0
  have h' : (0 : ℚ) ≤ roundHalfEven (x / 2 ^ (Int.log 2 x - 52)) := by exact_mod_cast this
  exact mul_nonneg h' hu.le

theorem log_le_of_lt (x : ℚ) (hx : 0 < x) (e : ℤ) (h : x < 2 ^ (e + 1)) : Int.log 2 x ≤ e := by
  have := (Int.lt_zpow_iff_log_lt (R := ℚ) (b := 2) (by norm_num) hx (x := e + 1)).mp
    (by exact_mod_cast h)
  omega

theorem le_log_of_le (x : ℚ) (hx : 0 < x) (e : ℤ) (h : 2 ^ e ≤ x) : e ≤ Int.log 2 x :=
  (Int.zpow_le_iff_le_log (R := ℚ) (b := 2) (by norm_num) hx (x := e)).mp (by exact_mod_cast h)

theorem log_eq_of (x : ℚ) (e : ℤ) (h1 : 2 ^ e ≤ x) (h2 : x < 2 ^ (e + 1)) : Int.log 2 x = e := by
  have hx : 0 < x := lt_of_lt_of_le (ulp_pos e) h1
  exact le_antisymm (log_le_of_lt x hx e h2) (le_log_of_le x hx e h1)

theorem ulp_eq_inv_pow (e : ℤ) (he : e ≤ 52) :
    (2 : ℚ) ^ (e - 52) = ((2 : ℚ) ^ (52 - e).toNat)⁻¹ := by
  have hk : e - 52 = -((52 - e).toNat : ℤ) := by
    rw [Int.toNat_of_nonneg (by omega)]; ring
  rw [hk, zpow_neg, zpow_natCast]

theorem intCast_le_roundPositive (m : ℤ) (x : ℚ) (he : Int.log 2 x ≤ 52) (h : (m : ℚ) ≤ x) :
    (m : ℚ) ≤ roundPositive x := by
  unfold roundPositive
  rw [ulp_eq_inv_pow _ he]
  have hp : (0 : ℚ) < 2 ^ (52 - Int.log 2 x).toNat := pow_pos (by norm_num) _
  rw [div_inv_eq_mul]
  have hle : ((m * 2 ^ (52 - Int.log 2 x).toNat : ℤ) : ℚ) ≤ x * 2 ^ (52 - Int.log 2 x).toNat := by
    push_cast
    exact mul_le_mul_of_nonneg_right h hp.le
  have hr := le_roundHalfEven _ _ hle
  have hr' : (m : ℚ) * 2 ^ (52 - Int.log 2 x).toNat
      ≤ roundHalfEven (x * 2 ^ (52 - Int.log 2 x).toNat) := by exact_mod_cast hr
  rw [le_mul_inv_iff₀ hp]
  exact hr'

theorem roundPositive_intCast (n : ℤ) (h0 : 0 < n) (h : n < 2 ^ 53) :
    roundPositive (n : ℚ) = n := by
  have hx : (0 : ℚ) < n := by exact_mod_cast h0
  have he : Int.log 2 (n : ℚ) ≤ 52 := by
    apply log_le_of_lt _ hx
    have h53 : (2 : ℚ) ^ ((52 : ℤ) + 1) = 2 ^ (53 : ℕ) := by norm_num
    rw [h53]
    exact_mod_cast h
  unfold roundPositive
  rw [ulp_eq_inv_pow _ he]
  have hp : (0 : ℚ) < 2 ^ (52 - Int.log 2 (n : ℚ)).toNat := pow_pos (by norm_num) _
  rw [div_inv_eq_mul]
  have hcast : (n : ℚ) * 2 ^ (52 - Int.log 2 (n : ℚ)).toNat
      = ((n * 2 ^ (52 - Int.log 2 (n : ℚ)).toNat : ℤ) : ℚ) := by push_cast; ring
  rw [hcast, roundHalfEven_intCast]
  push_cast
  field_simp

theorem toFloat64_neg (x : ℚ) : toFloat64 (-x) = -toFloat64 x := by
  unfold toFloat64
  rcases lt_trichotomy x 0 with h | h | h
  · have h1 : ¬ (-x = 0) := by intro h'; linarith [neg_eq_zero.mp h']
    have h2 : ¬ (-x < 0) := by linarith
    have h3 : ¬ (x = 0) := ne_of_lt h
    simp [h1, h2, h3, h]
  · subst h; simp
  · have h1 : ¬ (-x = 0) := by intro h'; linarith [neg_eq_zero.mp h']
    have h2 : -x < 0 := by linarith
    have h3 : ¬ (x = 0) := ne_of_gt h
    have h4 : ¬ (x < 0) := by linarith
    simp [h1, h2, h3, h4]

theorem toFloat64_of_pos (x : ℚ) (hx : 0 < x) : toFloat64 x = roundPositive x := by
  unfold toFloat64
  rw [if_neg (ne_of_gt hx), if_neg (not_lt.mpr hx.le)]

theorem toFloat64_intCast (n : ℤ) (h : |n| < 2 ^ 53) : toFloat64 (n : ℚ) = n := by
  rw [abs_lt] at h
  rcases lt_trichotomy n 0 with hn | hn | hn
  · have hpos : 0 < -n := by omega
    have := roundPositive_intCast (-n) hpos (by omega)
    have h2 : toFloat64 ((-n : ℤ) : ℚ) = ((-n : ℤ) : ℚ) := by
      rw [toFloat64_of_pos _ (by exact_mod_cast hpos)]; exact this
    push_cast at h2
    rw [toFloat64_neg] at h2
    linarith
  · subst hn; simp [toFloat64]
  · rw [toFloat64_of_pos _ (by exact_mod_cast hn)]
    exact roundPositive_intCast n hn h.2

theorem toFloat64_nonneg (x : ℚ) (hx : 0 ≤ x) : 0 ≤ toFloat64 x := by
  rcases eq_or_lt_of_le hx with h | h
  · rw [← h]; simp [toFloat64]
  · rw [toFloat64_of_pos x h]; exact roundPositive_nonneg x hx

theorem toInt_neg (x : ℚ) : toInt (-x) = -toInt x := by
  unfold toInt
  rcases lt_trichotomy x 0 with h | h | h
  · have h2 : ¬ (-x < 0) := by linarith
    simp [h2, h]
  · subst h; simp
  · have h2 : -x < 0 := by linarith
    have h4 : ¬ (x < 0) := by linarith
    simp [h2, h4]

theorem toInt_eq_of_bounds (y : ℚ) (n : ℤ) (hn : 0 ≤ n) (h1 : (n : ℚ) ≤ y) (h2 : y < n + 1) :
    toInt y = n := by
  unfold toInt
  have hy : ¬ (y < 0) := by
    have : (0 : ℚ) ≤ n := by exact_mod_cast hn
    linarith
  rw [if_neg hy]
  exact Int.floor_eq_iff.mpr ⟨h1, h2⟩

theorem half_ulp_le (x : ℚ) (e : ℤ) (he : Int.log 2 x ≤ e) :
    (2 : ℚ) ^ (Int.log 2 x - 52) / 2 ≤ 2 ^ (e - 53) := by
  have h1 : (2 : ℚ) ^ (Int.log 2 x - 52) ≤ 2 ^ (e - 52) :=
    zpow_le_zpow_right₀ (by norm_num) (by omega)
  have h2 : (2 : ℚ) ^ (e - 52) = 2 ^ (e - 53) * 2 := by
    rw [← zpow_add_one₀ (by norm_num : (2 : ℚ) ≠ 0)]
    congr 1; ring
  rw [h2] at h1
  linarith

theorem fraction_bounds (n : ℤ) (h0 : 0 ≤ n) (h1 : n < 10 ^ 9) :
    0 ≤ toFloat64 (toFloat64 (n : ℚ) / 1000000000) ∧
    toFloat64 (toFloat64 (n : ℚ) / 1000000000) ≤ 1 - 1 / 10 ^ 9 + 2 ^ (-54 : ℤ) := by
  have hn : toFloat64 (n : ℚ) = n := toFloat64_intCast n (by rw [abs_lt]; constructor <;> omega)
  rw [hn]
  have hq0 : (0 : ℚ) ≤ n := by exact_mod_cast h0
  have hq1 : (n : ℚ) ≤ 10 ^ 9 - 1 := by
    have : n ≤ 10 ^ 9 - 1 := by omega
    exact_mod_cast this
  have hx0 : (0 : ℚ) ≤ (n : ℚ) / 1000000000 := by positivity
  have hx1 : (n : ℚ) / 1000000000 ≤ 1 - 1 / 10 ^ 9 := by
    rw [div_le_iff₀ (by norm_num)]
    norm_num at hq1 ⊢
    linarith
  refine ⟨toFloat64_nonneg _ hx0, ?_⟩
  rcases eq_or_lt_of_le hx0 with h | h
  · rw [← h]
    have h54 : (0 : ℚ) < 2 ^ (-54 : ℤ) := ulp_pos _
    simp only [toFloat64, if_true]
    norm_num
  · rw [toFloat64_of_pos _ h]
    have hlog : Int.log 2 ((n : ℚ) / 1000000000) ≤ -1 := by
      apply log_le_of_lt _ h
      norm_num
      linarith
    have hb := abs_roundPositive_sub_le ((n : ℚ) / 1000000000)
    have hu := half_ulp_le _ _ hlog
    rw [abs_le] at hb
    have h54 : ((-1 : ℤ) - 53) = -54 := by norm_num
    rw [h54] at hu
    linarith

theorem sum_bounds (sec : ℤ) (fr : ℚ) (h0 : 0 ≤ sec) (h1 : sec < 2 ^ 24) (hf0 : 0 ≤ fr)
    (hf1 : fr ≤ 1 - 1 / 10 ^ 9 + 2 ^ (-54 : ℤ)) :
    (sec : ℚ) ≤ toFloat64 (sec + fr) ∧ toFloat64 (sec + fr) < sec + 1 := by
  have hs0 : (0 : ℚ) ≤ sec := by exact_mod_cast h0
  have hs1 : (sec : ℚ) + 1 ≤ 2 ^ 24 := by
    have : sec + 1 ≤ 2 ^ 24 := by omega
    exact_mod_cast this
  have hsmall : (2 : ℚ) ^ (-54 : ℤ) + 2 ^ (-30 : ℤ) < 1 / 10 ^ 9 := by norm_num
  rcases eq_or_lt_of_le (add_nonneg hs0 hf0) with h | h
  · rw [← h]
    have hsec : (sec : ℚ) = 0 := by linarith
    simp only [toFloat64, if_true]
    rw [hsec]; norm_num
  · rw [toFloat64_of_pos _ h]
    have hp30 : (0 : ℚ) < 2 ^ (-30 : ℤ) := ulp_pos _
    have hlt : (sec : ℚ) + fr < 2 ^ ((23 : ℤ) + 1) := by
      have : (2 : ℚ) ^ ((23 : ℤ) + 1) = 2 ^ 24 := by norm_num
      rw [this]
      linarith
    have hlog : Int.log 2 ((sec : ℚ) + fr) ≤ 23 := log_le_of_lt _ h 23 hlt
    constructor
    · exact intCast_le_roundPositive sec _ (by omega) (by linarith)
    · have hb := abs_roundPositive_sub_le ((sec : ℚ) + fr)
      have hu := half_ulp_le _ _ hlog
      rw [abs_le] at hb
      have h30 : ((23 : ℤ) - 53) = -30 := by norm_num
      rw [h30] at hu
      linarith

theorem Seconds_eq (d : ℤ) :
    Seconds d = toFloat64 (toFloat64 ((d.tdiv Second : ℤ) : ℚ)
      + toFloat64 (toFloat64 ((d.tmod Second : ℤ) : ℚ) / 1000000000)) := rfl

theorem toInt_Seconds_of_nonneg (d : ℤ) (h0 : 0 ≤ d) (h1 : d < 2 ^ 24 * 10 ^ 9) :
    toInt (Seconds d) = d.tdiv Second := by
  have hS : (0 : ℤ) ≤ Second := by decide
  have hsec0 : 0 ≤ d.tdiv Second := Int.tdiv_nonneg h0 hS
  have hsec1 : d.tdiv Second < 2 ^ 24 := by
    rw [Int.tdiv_eq_ediv h0 hS]
    apply Int.ediv_lt_of_lt_mul (by decide)
    simpa [Second] using h1
  have hns0 : 0 ≤ d.tmod Second := Int.tmod_nonneg _ h0
  have hns1 : d.tmod Second < 10 ^ 9 := Int.tmod_lt_of_pos d (by decide)
  have hfr := fraction_bounds (d.tmod Second) hns0 hns1
  have hsec : toFloat64 ((d.tdiv Second : ℤ) : ℚ) = (d.tdiv Second : ℤ) :=
    toFloat64_intCast _ (by rw [abs_lt]; constructor <;> omega)
  have hsum := sum_bounds (d.tdiv Second) _ hsec0 hsec1 hfr.1 hfr.2
  rw [Seconds_eq, hsec]
  exact toInt_eq_of_bounds _ _ hsec0 hsum.1 hsum.2

theorem Seconds_neg (d : ℤ) : Seconds (-d) = -Seconds d := by
  have hdiv : (-d).tdiv Second = -(d.tdiv Second) := Int.neg_tdiv d Second
  have hmod : (-d).tmod Second = -(d.tmod Second) := by
    have h1 := Int.tmod_add_tdiv (-d) Second
    have h2 := Int.tmod_add_tdiv d Second
    rw [hdiv] at h1
    linarith [mul_neg Second (d.tdiv Second)]
  rw [Seconds_eq, Seconds_eq, hdiv, hmod]
  push_cast
  rw [toFloat64_neg, toFloat64_neg, neg_div, toFloat64_neg, ← neg_add, toFloat64_neg]

/-- For a duration of less than `2^24` seconds in either direction, the conversion to
whole seconds through `Seconds` is the truncated quotient by `Second`. -/
theorem toInt_Seconds (d : ℤ) (h : |d| < 2 ^ 24 * 10 ^ 9) :
    toInt (Seconds d) = d.tdiv Second := by
  rw [abs_lt] at h
  rcases le_or_lt 0 d with hd | hd
  · exact toInt_Seconds_of_nonneg d hd h.2
  · have hpos := toInt_Seconds_of_nonneg (-d) (by omega) (by omega)
    rw [Seconds_neg, toInt_neg, Int.neg_tdiv] at hpos
    omega

theorem roundPositive_eq_of (x : ℚ) (e m : ℤ) (h1 : 2 ^ e ≤ x) (h2 : x < 2 ^ (e + 1))
    (hm : |x / 2 ^ (e - 52) - m| < 1 / 2) : roundPositive x = m * 2 ^ (e - 52) := by
  unfold roundPositive
  rw [log_eq_of x e h1 h2, roundHalfEven_eq_of_abs_lt _ m hm]

/-- The `float64` quotient `999999999 / 1e9`. -/
theorem toFloat64_largest_fraction :
    toFloat64 ((999999999 : ℚ) / 1000000000) = 9007199245733793 * 2 ^ (-53 : ℤ) := by
  rw [toFloat64_of_pos _ (by norm_num)]
  have := roundPositive_eq_of ((999999999 : ℚ) / 1000000000) (-1) 9007199245733793
    (by norm_num) (by norm_num) (by rw [abs_lt]; constructor <;> norm_num)
  simpa using this

/-- The duration of `16777216.999999999` seconds is `16777217.0` seconds as a `float64`. -/
theorem Seconds_example_above :
    Seconds 16777216999999999 = 16777217 := by
  have hsec : toFloat64 (((16777216 : ℤ) : ℚ)) = ((16777216 : ℤ) : ℚ) :=
    toFloat64_intCast _ (by decide)
  have hnsec : toFloat64 (((999999999 : ℤ) : ℚ)) = ((999999999 : ℤ) : ℚ) :=
    toFloat64_intCast _ (by decide)
  have hfr := toFloat64_largest_fraction
  have hsum : toFloat64 ((16777216 : ℚ) + 9007199245733793 * 2 ^ (-53 : ℤ)) = 16777217 := by
    rw [toFloat64_of_pos _ (by norm_num)]
    have := roundPositive_eq_of ((16777216 : ℚ) + 9007199245733793 * 2 ^ (-53 : ℤ)) 24
      4503599895805952
      (by norm_num) (by norm_num) (by rw [abs_lt]; constructor <;> norm_num)
    rw [this]; norm_num
  have hdiv : (16777216999999999 : ℤ).tdiv Second = 16777216 := by decide
  have hmod : (16777216999999999 : ℤ).tmod Second = 999999999 := by decide
  rw [Seconds_eq, hdiv, hmod, hsec, hnsec]
  push_cast
  rw [hfr, hsum]

/-- The duration of `20000000.999999999` seconds is `20000001.0` seconds as a `float64`. -/
theorem Seconds_example_beyond :
    Seconds 20000000999999999 = 20000001 := by
  have hsec : toFloat64 (((20000000 : ℤ) : ℚ)) = ((20000000 : ℤ) : ℚ) :=
    toFloat64_intCast _ (by decide)
  have hnsec : toFloat64 (((999999999 : ℤ) : ℚ)) = ((999999999 : ℤ) : ℚ) :=
    toFloat64_intCast _ (by decide)
  have hfr := toFloat64_largest_fraction
  have hsum : toFloat64 ((20000000 : ℚ) + 9007199245733793 * 2 ^ (-53 : ℤ)) = 20000001 := by
    rw [toFloat64_of_pos _ (by norm_num)]
    have := roundPositive_eq_of ((20000000 : ℚ) + 9007199245733793 * 2 ^ (-53 : ℤ)) 24
      5368709388435456
      (by norm_num) (by norm_num) (by rw [abs_lt]; constructor <;> norm_num)
    rw [this]; norm_num
  have hdiv : (20000000999999999 : ℤ).tdiv Second = 20000000 := by decide
  have hmod : (20000000999999999 : ℤ).tmod Second = 999999999 := by decide
  rw [Seconds_eq, hdiv, hmod, hsec, hnsec]
  push_cast
  rw [hfr, hsum]

/-- A duration of at least one second converts to at least one whole second. -/
theorem one_le_toInt_Seconds (d : ℤ) (h0 : Second ≤ d) (h1 : d ≤ 2 ^ 63) :
    1 ≤ toInt (Seconds d) := by
  have hS : (0 : ℤ) ≤ Second := by decide
  have hd0 : 0 ≤ d := le_trans hS h0
  have hsec1 : 1 ≤ d.tdiv Second := by
    rw [Int.tdiv_eq_ediv hd0 hS]
    exact Int.le_ediv_of_mul_le (by decide) (by simpa using h0)
  have hsec2 : d.tdiv Second < 2 ^ 34 := by
    rw [Int.tdiv_eq_ediv hd0 hS]
    apply Int.ediv_lt_of_lt_mul (by decide)
    have : (2 : ℤ) ^ 63 < 2 ^ 34 * Second := by decide
    omega
  have hns0 : 0 ≤ d.tmod Second := Int.tmod_nonneg _ hd0
  have hns1 : d.tmod Second < 10 ^ 9 := Int.tmod_lt_of_pos d (by decide)
  have hfr := fraction_bounds (d.tmod Second) hns0 hns1
  have hsec : toFloat64 ((d.tdiv Second : ℤ) : ℚ) = (d.tdiv Second : ℤ) :=
    toFloat64_intCast _ (by rw [abs_lt]; constructor <;> omega)
  have hq1 : (1 : ℚ) ≤ (d.tdiv Second : ℤ) := by exact_mod_cast hsec1
  have hq2 : ((d.tdiv Second : ℤ) : ℚ) < 2 ^ 34 := by exact_mod_cast hsec2
  have hpos : (0 : ℚ) < (d.tdiv Second : ℤ)
      + toFloat64 (toFloat64 ((d.tmod Second : ℤ) : ℚ) / 1000000000) := by linarith [hfr.1]
  have h54 : (2 : ℚ) ^ (-54 : ℤ) < 1 := by norm_num
  have hlog : Int.log 2 (((d.tdiv Second : ℤ) : ℚ)
      + toFloat64 (toFloat64 ((d.tmod Second : ℤ) : ℚ) / 1000000000)) ≤ 52 := by
    apply log_le_of_lt _ hpos
    have : (2 : ℚ) ^ ((52 : ℤ) + 1) = 2 ^ 53 := by norm_num
    rw [this]
    have : (2 : ℚ) ^ 34 + 2 ≤ 2 ^ 53 := by norm_num
    have h109 : (0 : ℚ) < 1 / 10 ^ 9 := by norm_num
    linarith [hfr.2]
  have hle := intCast_le_roundPositive (d.tdiv Second) _ hlog (by linarith [hfr.1])
  rw [Seconds_eq, hsec, toFloat64_of_pos _ hpos]
  unfold toInt
  have hnn : ¬ (roundPositive (((d.tdiv Second : ℤ) : ℚ)
      + toFloat64 (toFloat64 ((d.tmod Second : ℤ) : ℚ) / 1000000000)) < 0) := by
    linarith
  rw [if_neg hnn]
  exact Int.le_floor.mpr (by push_cast; linarith)

theorem toInt_Seconds_neg_of_le (d : ℤ) (h0 : d ≤ -Second) (h1 : minDuration ≤ d) :
    toInt (Seconds d) < 0 := by
  have h := one_le_toInt_Seconds (-d) (by omega) (by unfold minDuration at h1; omega)
  rw [Seconds_neg, toInt_neg] at h
  omega

theorem saturate_eq_self (d : ℤ) (h : |d| < 2 ^ 24 * 10 ^ 9) : saturate d = d := by
  rw [abs_lt] at h
  unfold saturate minDuration maxDuration
  rw [if_neg (by omega), if_neg (by omega)]

theorem saturate_le_neg_Second (d : ℤ) (h : d ≤ -Second) :
    saturate d ≤ -Second ∧ minDuration ≤ saturate d := by
  unfold saturate
  have hS : Second = 1000000000 := rfl
  unfold minDuration maxDuration
  split_ifs <;> constructor <;> omega

/-! ## ContextTimeout: the claims -/

/-- C12 as stated fails: for a context without deadline and the default timeout of
`16777216.999999999` seconds (a valid `time.Duration`), `ContextTimeout` returns
`16777217`, while the nanosecond count divided by `10^9` and truncated is `16777216`:
`def.Seconds()` is a `float64`, and the sum `16777216 + 0.999999999` rounds to
`16777217.0`. -/
theorem ContextTimeout_no_deadline_rounds_up :
    (minDuration ≤ 16777216999999999 ∧ (16777216999999999 : Int) ≤ maxDuration) ∧
    ContextTimeout 0 ⟨none⟩ 16777216999999999 = 16777217 ∧
    (16777216999999999 : Int).tdiv Second = 16777216 ∧
    ContextTimeout 0 ⟨none⟩ 16777216999999999 ≠ (16777216999999999 : Int).tdiv Second := by
  have hcall : ContextTimeout 0 ⟨none⟩ 16777216999999999 = 16777217 := by
    simp only [ContextTimeout, Seconds_example_above]
    rfl
  refine ⟨by decide, hcall, by decide, ?_⟩
  rw [hcall]
  decide

/-- C12, amended: for a context without deadline and a default timeout `d` of less than
`2^24` seconds (about 194 days) in either direction, `ContextTimeout` returns the
nanosecond count of `d` divided by `10^9` and truncated toward zero; the result does not
depend on the current time; and the default timeout of 30 seconds gives `30`. -/
theorem ContextTimeout_no_deadline (now : Int) (ctx : Context) (d : Int)
    (hctx : ctx.Deadline = none) (hd : |d| < 2 ^ 24 * 10 ^ 9) :
    ContextTimeout now ctx d = d.tdiv Second ∧
    (∀ now' : Int, ContextTimeout now' ctx d = ContextTimeout now ctx d) ∧
    ContextTimeout now ctx (30 * Second) = 30 := by
  have hcall : ∀ (t e : Int), ContextTimeout t ctx e = toInt (Seconds e) := by
    intro t e
    simp only [ContextTimeout, hctx]
  refine ⟨?_, fun now' => ?_, ?_⟩
  · rw [hcall, toInt_Seconds d hd]
  · rw [hcall, hcall]
  · rw [hcall, toInt_Seconds (30 * Second) (by decide)]
    decide

/-- C12, amended, at a default timeout of `90.999999999` seconds: the result is `90`. -/
theorem ContextTimeout_no_deadline_witness :
    |(90999999999 : Int)| < 2 ^ 24 * 10 ^ 9 ∧ ContextTimeout 1000 ⟨none⟩ 90999999999 = 90 :=
  ⟨by decide,
   (ContextTimeout_no_deadline 1000 ⟨none⟩ 90999999999 rfl (by decide)).1.trans (by decide)⟩

/-- C13 as stated fails: at the time `0`, for a context whose deadline lies
`20000000.999999999` seconds ahead, `ContextTimeout` returns `20000001`, while the
whole-second count of the difference, truncated, is `20000000`. -/
theorem ContextTimeout_deadline_rounds_up :
    ContextTimeout 0 ⟨some 20000000999999999⟩ 0 = 20000001 ∧
    ((20000000999999999 : Int) - 0).tdiv Second = 20000000 ∧
    ContextTimeout 0 ⟨some 20000000999999999⟩ 0 ≠ ((20000000999999999 : Int) - 0).tdiv Second := by
  have huntil : Until 0 20000000999999999 = 20000000999999999 := by decide
  have hcall : ContextTimeout 0 ⟨some 20000000999999999⟩ 0 = 20000001 := by
    simp only [ContextTimeout, huntil, Seconds_example_beyond]
    rfl
  refine ⟨hcall, by decide, ?_⟩
  rw [hcall]
  decide

/-- C13, amended: for a context with the deadline `D`, called at the time `now`,
`ContextTimeout` does not depend on the default timeout; it is negative whenever the
deadline lies at least one second in the past; when the deadline is less than `2^24`
seconds (about 194 days) away in either direction, it is the nanosecond count of
`D - now` divided by `10^9` and truncated toward zero; and a deadline 5 seconds ahead
gives `5`. -/
theorem ContextTimeout_deadline (now : Int) (ctx : Context) (D d : Int)
    (hctx : ctx.Deadline = some D) :
    (∀ d' : Int, ContextTimeout now ctx d' = ContextTimeout now ctx d) ∧
    (D - now ≤ -Second → ContextTimeout now ctx d < 0) ∧
    (|D - now| < 2 ^ 24 * 10 ^ 9 → ContextTimeout now ctx d = (D - now).tdiv Second) ∧
    (D = now + 5 * Second → ContextTimeout now ctx d = 5) := by
  have hcall : ∀ e : Int, ContextTimeout now ctx e = toInt (Seconds (saturate (D - now))) := by
    intro e
    simp only [ContextTimeout, hctx, Until]
  have hnear : |D - now| < 2 ^ 24 * 10 ^ 9 → ContextTimeout now ctx d = (D - now).tdiv Second := by
    intro h
    rw [hcall, saturate_eq_self _ h, toInt_Seconds _ h]
  refine ⟨fun d' => ?_, fun hpast => ?_, hnear, fun hfive => ?_⟩
  · rw [hcall, hcall]
  · rw [hcall]
    have hsat := saturate_le_neg_Second _ hpast
    exact toInt_Seconds_neg_of_le _ hsat.1 hsat.2
  · have hdiff : D - now = 5 * Second := by omega
    rw [hnear (by rw [hdiff]; decide), hdiff]
    decide

/-- C13, amended, at the time `1000`: a deadline `2.5` seconds in the past gives `-2`,
and a deadline 5 seconds ahead gives `5`. -/
theorem ContextTimeout_deadline_witness :
    ContextTimeout 1000 ⟨some (-2499999000)⟩ 77 < 0 ∧
    ContextTimeout 1000 ⟨some (-2499999000)⟩ 77 = -2 ∧
    ContextTimeout 1000 ⟨some 5000001000⟩ 77 = 5 :=
  ⟨(ContextTimeout_deadline 1000 ⟨some (-2499999000)⟩ (-2499999000) 77 rfl).2.1 (by decide),
   ((ContextTimeout_deadline 1000 ⟨some (-2499999000)⟩ (-2499999000) 77 rfl).2.2.1
      (by decide)).trans (by decide),
   (ContextTimeout_deadline 1000 ⟨some 5000001000⟩ 5000001000 77 rfl).2.2.2 (by decide)⟩

/-! ## Lemmas on the order of versions -/

theorem identifierLess_irrefl (a : Identifier) : a.less a = false := by
  cases a with
  | numeric n => simp [Identifier.less]
  | alphanumeric s => simp [Identifier.less, stringLess_irrefl]

theorem identifierLess_trans (a b c : Identifier) (hab : a.less b = true)
    (hbc : b.less c = true) : a.less c = true := by
  cases a with
  | numeric x =>
    cases b with
    | numeric y =>
      cases c with
      | numeric z => simp only [Identifier.less, decide_eq_true_eq] at *; omega
      | alphanumeric z => rfl
    | alphanumeric y =>
      cases c with
      | numeric z => simp [Identifier.less] at hbc
      | alphanumeric z => rfl
  | alphanumeric x =>
    cases b with
    | numeric y => simp [Identifier.less] at hab
    | alphanumeric y =>
      cases c with
      | numeric z => simp [Identifier.less] at hbc
      | alphanumeric z => exact stringLess_trans _ _ _ hab hbc

theorem identifierLess_trichotomy (a b : Identifier) :
    a.less b = true ∨ a = b ∨ b.less a = true := by
  cases a with
  | numeric m =>
    cases b with
    | numeric n =>
      simp only [Identifier.less, decide_eq_true_eq, Identifier.numeric.injEq]
      omega
    | alphanumeric t => exact Or.inl rfl
  | alphanumeric s =>
    cases b with
    | numeric n => exact Or.inr (Or.inr rfl)
    | alphanumeric t =>
      simp only [Identifier.less, Identifier.alphanumeric.injEq]
      exact stringLess_trichotomy s t

theorem identifierLess_asymm (a b : Identifier) (hab : a.less b = true) : b.less a = false := by
  cases hba : b.less a with
  | false => rfl
  | true =>
    have := identifierLess_trans a b a hab hba
    rw [identifierLess_irrefl] at this
    exact absurd this (by decide)

theorem identifiersLess_cons_cons (a b : Identifier) (as bs : List Identifier) :
    identifiersLess (a :: as) (b :: bs) = true ↔
      a.less b = true ∨ (a = b ∧ identifiersLess as bs = true) := by
  simp only [identifiersLess]
  rcases identifierLess_trichotomy a b with h | h | h
  · simp [h]
  · subst h; simp [identifierLess_irrefl]
  · have hab := identifierLess_asymm b a h
    have hne : a ≠ b := by
      intro heq
      rw [heq, identifierLess_irrefl] at h
      exact absurd h (by decide)
    simp [h, hab, hne]

theorem identifiersLess_irrefl (a : List Identifier) : identifiersLess a a = false := by
  induction a with
  | nil => rfl
  | cons x xs ih =>
    cases h : identifiersLess (x :: xs) (x :: xs) with
    | false => rfl
    | true =>
      rcases (identifiersLess_cons_cons x x xs xs).mp h with h' | ⟨_, h'⟩
      · rw [identifierLess_irrefl] at h'; exact absurd h' (by decide)
      · rw [ih] at h'; exact absurd h' (by decide)

theorem identifiersLess_trans (a b c : List Identifier) (hab : identifiersLess a b = true)
    (hbc : identifiersLess b c = true) : identifiersLess a c = true := by
  induction a generalizing b c with
  | nil =>
    cases b with
    | nil => simp [identifiersLess] at hab
    | cons y ys =>
      cases c with
      | nil => simp [identifiersLess] at hbc
      | cons z zs => rfl
  | cons x xs ih =>
    cases b with
    | nil => simp [identifiersLess] at hab
    | cons y ys =>
      cases c with
      | nil => simp [identifiersLess] at hbc
      | cons z zs =>
        rw [identifiersLess_cons_cons] at hab hbc ⊢
        rcases hab with h1 | ⟨h1, h1'⟩
        · rcases hbc with h2 | ⟨h2, _⟩
          · exact Or.inl (identifierLess_trans _ _ _ h1 h2)
          · exact Or.inl (h2 ▸ h1)
        · rcases hbc with h2 | ⟨h2, h2'⟩
          · exact Or.inl (h1 ▸ h2)
          · exact Or.inr ⟨h1.trans h2, ih ys zs h1' h2'⟩

theorem identifiersLess_trichotomy (a b : List Identifier) :
    identifiersLess a b = true ∨ a = b ∨ identifiersLess b a = true := by
  induction a generalizing b with
  | nil =>
    cases b with
    | nil => exact Or.inr (Or.inl rfl)
    | cons y ys => exact Or.inl rfl
  | cons x xs ih =>
    cases b with
    | nil => exact Or.inr (Or.inr rfl)
    | cons y ys =>
      rw [identifiersLess_cons_cons, identifiersLess_cons_cons]
      rcases identifierLess_trichotomy x y with h | h | h
      · exact Or.inl (Or.inl h)
      · rcases ih ys with h' | h' | h'
        · exact Or.inl (Or.inr ⟨h, h'⟩)
        · exact Or.inr (Or.inl (by rw [h, h']))
        · exact Or.inr (Or.inr (Or.inr ⟨h.symm, h'⟩))
      · exact Or.inr (Or.inr (Or.inl h))

theorem preLess_irrefl (a : List Identifier) : preLess a a = false := by
  cases a with
  | nil => rfl
  | cons x xs => exact identifiersLess_irrefl (x :: xs)

theorem preLess_trans (a b c : List Identifier) (hab : preLess a b = true)
    (hbc : preLess b c = true) : preLess a c = true := by
  cases a with
  | nil => simp [preLess] at hab
  | cons x xs =>
    cases b with
    | nil => simp [preLess] at hbc
    | cons y ys =>
      cases c with
      | nil => rfl
      | cons z zs => exact identifiersLess_trans _ _ _ hab hbc

theorem preLess_trichotomy (a b : List Identifier) :
    preLess a b = true ∨ a = b ∨ preLess b a = true := by
  cases a with
  | nil =>
    cases b with
    | nil => exact Or.inr (Or.inl rfl)
    | cons y ys => exact Or.inr (Or.inr rfl)
  | cons x xs =>
    cases b with
    | nil => exact Or.inl rfl
    | cons y ys => exact identifiersLess_trichotomy (x :: xs) (y :: ys)

/-- The order of versions, spelled out: major, then minor, then patch, then the
pre-release metadata. -/
theorem semverLess_iff (a b : SemVer) :
    a.less b = true ↔
      a.major < b.major ∨ (a.major = b.major ∧ (a.minor < b.minor ∨ (a.minor = b.minor ∧
        (a.patch < b.patch ∨ (a.patch = b.patch ∧ preLess a.pre b.pre = true))))) := by
  unfold SemVer.less
  split_ifs with h1 h2 h3
  · rw [decide_eq_true_eq]
    constructor
    · intro h; exact Or.inl h
    · rintro (h | ⟨h, _⟩)
      · exact h
      · exact absurd h h1
  · have e1 : a.major = b.major := not_not.mp h1
    rw [decide_eq_true_eq]
    constructor
    · intro h; exact Or.inr ⟨e1, Or.inl h⟩
    · rintro (h | ⟨_, h | ⟨h, _⟩⟩)
      · exact absurd h (by omega)
      · exact h
      · exact absurd h h2
  · have e1 : a.major = b.major := not_not.mp h1
    have e2 : a.minor = b.minor := not_not.mp h2
    rw [decide_eq_true_eq]
    constructor
    · intro h; exact Or.inr ⟨e1, Or.inr ⟨e2, Or.inl h⟩⟩
    · rintro (h | ⟨_, h | ⟨_, h | ⟨h, _⟩⟩⟩)
      · exact absurd h (by omega)
      · exact absurd h (by omega)
      · exact h
      · exact absurd h h3
  · have e1 : a.major = b.major := not_not.mp h1
    have e2 : a.minor = b.minor := not_not.mp h2
    have e3 : a.patch = b.patch := not_not.mp h3
    constructor
    · intro h; exact Or.inr ⟨e1, Or.inr ⟨e2, Or.inr ⟨e3, h⟩⟩⟩
    · rintro (h | ⟨_, h | ⟨_, h | ⟨_, h⟩⟩⟩)
      · exact absurd h (by omega)
      · exact absurd h (by omega)
      · exact absurd h (by omega)
      · exact h

theorem semverLess_irrefl (a : SemVer) : a.less a = false := by
  cases h : a.less a with
  | false => rfl
  | true =>
    rw [semverLess_iff, preLess_irrefl] at h
    simp at h

theorem semverLess_trans (a b c : SemVer) (hab : a.less b = true) (hbc : b.less c = true) :
    a.less c = true := by
  rw [semverLess_iff] at hab hbc ⊢
  rcases hab with h1 | ⟨e1, h1 | ⟨e2, h1 | ⟨e3, h1⟩⟩⟩ <;>
    rcases hbc with h2 | ⟨f1, h2 | ⟨f2, h2 | ⟨f3, h2⟩⟩⟩
  all_goals first
    | exact Or.inl (by omega)
    | exact Or.inr ⟨by omega, Or.inl (by omega)⟩
    | exact Or.inr ⟨by omega, Or.inr ⟨by omega, Or.inl (by omega)⟩⟩
    | exact Or.inr ⟨by omega, Or.inr ⟨by omega, Or.inr ⟨by omega, preLess_trans _ _ _ h1 h2⟩⟩⟩

theorem semverLess_trichotomy (a b : SemVer) :
    a.less b = true ∨ b.less a = true ∨
      (a.major = b.major ∧ a.minor = b.minor ∧ a.patch = b.patch ∧ a.pre = b.pre) := by
  rw [semverLess_iff, semverLess_iff]
  rcases Nat.lt_trichotomy a.major b.major with h | h | h
  · exact Or.inl (Or.inl h)
  · rcases Nat.lt_trichotomy a.minor b.minor with h' | h' | h'
    · exact Or.inl (Or.inr ⟨h, Or.inl h'⟩)
    · rcases Nat.lt_trichotomy a.patch b.patch with h'' | h'' | h''
      · exact Or.inl (Or.inr ⟨h, Or.inr ⟨h', Or.inl h''⟩⟩)
      · rcases preLess_trichotomy a.pre b.pre with hp | hp | hp
        · exact Or.inl (Or.inr ⟨h, Or.inr ⟨h', Or.inr ⟨h'', hp⟩⟩⟩)
        · exact Or.inr (Or.inr ⟨h, h', h'', hp⟩)
        · exact Or.inr (Or.inl (Or.inr ⟨h.symm, Or.inr ⟨h'.symm, Or.inr ⟨h''.symm, hp⟩⟩⟩))
      · exact Or.inr (Or.inl (Or.inr ⟨h.symm, Or.inr ⟨h'.symm, Or.inl h''⟩⟩))
    · exact Or.inr (Or.inl (Or.inr ⟨h.symm, Or.inl h'⟩))
  · exact Or.inr (Or.inl (Or.inl h))

theorem collect_eq_some {α : Type} (l : List (Option α)) (r : List α)
    (h : collect l = some r) : l = r.map some := by
  induction l generalizing r with
  | nil =>
    simp only [collect, Option.some.injEq] at h
    rw [← h]; rfl
  | cons x xs ih =>
    cases x with
    | none => simp [collect] at h
    | some a =>
      simp only [collect, Option.map_eq_some'] at h
      obtain ⟨r', hr', hcons⟩ := h
      rw [← hcons, ih r' hr']
      rfl

/-! ## CheckVersion against the version library of the spec -/

/-- C11: with the version library as the spec describes it, for every version text `v`
that parses, to `ver`, and every constraint text `c` that parses, to `clauses`,
`CheckVersion(v, c)` returns, without error, whether `ver` satisfies every clause; the
clauses are those of the comma-separated pieces of `c`, in order; the order of versions
that decides each clause compares major, minor and patch as numbers and then the
pre-release metadata, and it is a strict total order up to build metadata.
`CheckVersion("1.2.3", ">=1.0.0")` is `(true, nil)` and
`CheckVersion("0.9.0", ">=1.0.0")` is `(false, nil)`. -/
theorem CheckVersion_semver_verdict (nonASCII : GoString → GoString) (v c : GoString)
    (ver : SemVer) (clauses : List Clause)
    (hv : specLib.NewVersion v = .ok ver) (hc : specLib.NewConstraint c = .ok clauses) :
    CheckVersion specLib nonASCII v c = (decide (∀ cl ∈ clauses, cl.holds ver = true), none) ∧
    (splitOn 0x2c c).map parseClause = clauses.map some ∧
    (∀ a b : SemVer, a.less b = true ↔
      a.major < b.major ∨ (a.major = b.major ∧ (a.minor < b.minor ∨ (a.minor = b.minor ∧
        (a.patch < b.patch ∨ (a.patch = b.patch ∧ preLess a.pre b.pre = true)))))) ∧
    (∀ a : SemVer, a.less a = false) ∧
    (∀ a b d : SemVer, a.less b = true → b.less d = true → a.less d = true) ∧
    (∀ a b : SemVer, a.less b = true ∨ b.less a = true ∨
      (a.major = b.major ∧ a.minor = b.minor ∧ a.patch = b.patch ∧ a.pre = b.pre)) ∧
    CheckVersion specLib nonASCII (ascii "1.2.3") (ascii ">=1.0.0") = (true, none) ∧
    CheckVersion specLib nonASCII (ascii "0.9.0") (ascii ">=1.0.0") = (false, none) := by
  refine ⟨?_, ?_, semverLess_iff, semverLess_irrefl, semverLess_trans,
    semverLess_trichotomy, rfl, rfl⟩
  · unfold CheckVersion
    rw [hv, hc]
    have hcheck : specLib.Check clauses ver = decide (∀ cl ∈ clauses, cl.holds ver = true) := by
      rw [Bool.eq_iff_iff, decide_eq_true_eq]
      exact List.all_eq_true
    show (specLib.Check clauses ver, none) = _
    rw [hcheck]
  · have hparse : collect ((splitOn 0x2c c).map parseClause) = some clauses := by
      simp only [specLib] at hc
      cases hcol : collect ((splitOn 0x2c c).map parseClause) with
      | none => rw [hcol] at hc; cases hc
      | some r =>
        rw [hcol] at hc
        simp only [Except.ok.injEq] at hc
        rw [hc]
    exact collect_eq_some _ _ hparse

/-- C11 at the version `1.5.0-rc.1` and the constraint `>= 1.0.0, < 2.0.0` (two clauses,
both satisfied) -/
theorem CheckVersion_semver_verdict_witness :
    specLib.NewVersion (ascii "1.5.0-rc.1")
      = .ok ⟨1, 5, 0, [.alphanumeric (ascii "rc"), .numeric 1], []⟩ ∧
    specLib.NewConstraint (ascii ">= 1.0.0, < 2.0.0")
      = .ok [⟨.ge, ⟨1, 0, 0, [], []⟩⟩, ⟨.lt, ⟨2, 0, 0, [], []⟩⟩] ∧
    CheckVersion specLib (fun s => s) (ascii "1.5.0-rc.1") (ascii ">= 1.0.0, < 2.0.0")
      = (true, none) :=
  ⟨rfl, rfl,
   (CheckVersion_semver_verdict (fun s => s) (ascii "1.5.0-rc.1") (ascii ">= 1.0.0, < 2.0.0")
      ⟨1, 5, 0, [.alphanumeric (ascii "rc"), .numeric 1], []⟩
      [⟨.ge, ⟨1, 0, 0, [], []⟩⟩, ⟨.lt, ⟨2, 0, 0, [], []⟩⟩] rfl rfl).1.trans (by decide)⟩

/-! ## testProvider: concurrent first calls -/

section ConcurrentCalls

variable {R P E : Type}

theorem runCalls_length (calls : List (Ambient R P E)) (s : Memory P) :
    (runCalls calls s).length = calls.length := by
  induction calls generalizing s with
  | nil => rfl
  | cons a rest ih => simp [runCalls, ih]

/-- The first call of the program with `INCUS_REMOTE` empty. -/
theorem testProvider_start_default (a : Ambient R P E)
    (hremote : a.Getenv (ascii "INCUS_REMOTE") = []) :
    testProvider a (Memory.start P) =
      ⟨.returned ⟨0, a.NewIncusProvider a.DefaultConfig true⟩,
        ⟨some ⟨0, a.NewIncusProvider a.DefaultConfig true⟩, false, 1⟩,
        [.lock, .getenv (ascii "INCUS_REMOTE"), .defaultConfig, .newIncusProvider true,
          .unlock]⟩ := by
  simp [testProvider, testProviderBody, Memory.start, hremote]

/-- The first call of the program with `INCUS_REMOTE` not empty and a loader that
returns `base`. -/
theorem testProvider_start_loaded (a : Ambient R P E) (base : Config R)
    (hremote : a.Getenv (ascii "INCUS_REMOTE") ≠ []) (hload : a.LoadConfig [] = .ok base) :
    testProvider a (Memory.start P) =
      ⟨.returned ⟨0, a.NewIncusProvider
          { base with DefaultRemote := a.Getenv (ascii "INCUS_REMOTE") } true⟩,
        ⟨some ⟨0, a.NewIncusProvider
          { base with DefaultRemote := a.Getenv (ascii "INCUS_REMOTE") } true⟩, false, 1⟩,
        [.lock, .getenv (ascii "INCUS_REMOTE"), .loadConfig [], .newIncusProvider true,
          .unlock]⟩ := by
  simp [testProvider, testProviderBody, Memory.start, hremote, hload]

/-- Calls that only lock and unlock the mutex contribute no effect of a kind that
leaves these two out. -/
theorem effectsOf_filter_idle (outs : List (Outcome P E)) (kind : Effect → Bool)
    (hlock : kind .lock = false) (hunlock : kind .unlock = false)
    (hidle : ∀ o ∈ outs, o.effects = [.lock, .unlock]) :
    (effectsOf outs).filter kind = [] := by
  induction outs with
  | nil => rfl
  | cons o rest ih =>
    have ho := hidle o (List.mem_cons_self _ _)
    have hrest : ∀ o' ∈ rest, o'.effects = [.lock, .unlock] :=
      fun o' ho' => hidle o' (List.mem_cons_of_mem _ ho')
    simp [effectsOf, ho, List.filter_cons, hlock, hunlock, ih hrest]

/-- A run in which the first call returns `p`, leaves it stored with the mutex unlocked,
and does `first`: every call returns `p`, and the later calls add nothing but locking
and unlocking. -/
theorem runCalls_after_first (a : Ambient R P E) (rest : List (Ambient R P E)) (s : Memory P)
    (p : Ptr P) (n : Nat) (first : List Effect)
    (hfirst : testProvider a s = ⟨.returned p, ⟨some p, false, n⟩, .lock :: (first ++ [.unlock])⟩) :
    (∀ o ∈ runCalls (a :: rest) s,
      o.completion = .returned p ∧ o.memory.testProviderConfig = some p ∧
      o.memory.testProviderMutex = false ∧
      ∃ inner, o.effects = .lock :: (inner ++ [.unlock])) ∧
    (∀ kind : Effect → Bool, kind .lock = false → kind .unlock = false →
      (effectsOf (runCalls (a :: rest) s)).filter kind = first.filter kind) := by
  have hlater := runCalls_of_some rest (⟨some p, false, n⟩ : Memory P) p rfl rfl
  constructor
  · intro o ho
    simp only [runCalls, hfirst, List.mem_cons] at ho
    rcases ho with h | h
    · subst h; exact ⟨rfl, rfl, rfl, first, rfl⟩
    · obtain ⟨hc, hm, he⟩ := hlater o h
      exact ⟨hc, by rw [hm], by rw [hm], [], by rw [he]; rfl⟩
  · intro kind hlock hunlock
    have hidle := effectsOf_filter_idle (runCalls rest (⟨some p, false, n⟩ : Memory P)) kind
      hlock hunlock (fun o ho => (hlater o ho).2.2)
    simp only [runCalls, hfirst, effectsOf, List.filter_append, hidle, List.append_nil,
      List.filter_cons, hlock, hunlock, List.filter_nil, List.cons_append]
    simp

end ConcurrentCalls

/-- C17: `N ≥ 2` concurrent first calls of `testProvider`, all in the same environment,
with a loader that succeeds.  The whole body of the function runs between `Lock` and the
deferred `Unlock`, so the calls run one after the other, in the order in which they get
the mutex; `calls` lists them in that order, and the statement holds for every order.
All `N` calls return the same pointer `p`, to a configuration built completely by one of
the calls, with the flag `true`; there is exactly one construction, and exactly one call
of the loader, with the empty path, when `INCUS_REMOTE` is not empty, and none when it
is empty; every call does what it does between locking and unlocking the mutex, and
leaves `p` stored and the mutex unlocked. -/
theorem testProvider_concurrent_first_calls {R P E : Type} (calls : List (Ambient R P E))
    (remote : GoString) (hN : 2 ≤ calls.length)
    (henv : ∀ a ∈ calls, a.Getenv (ascii "INCUS_REMOTE") = remote)
    (hload : remote ≠ [] → ∀ a ∈ calls, ∃ base, a.LoadConfig [] = .ok base) :
    ∃ p : Ptr P,
      (runCalls calls (Memory.start P)).length = calls.length ∧
      (∀ o ∈ runCalls calls (Memory.start P),
        o.completion = .returned p ∧ o.memory.testProviderConfig = some p ∧
        o.memory.testProviderMutex = false ∧
        ∃ inner, o.effects = .lock :: (inner ++ [.unlock])) ∧
      (∃ a ∈ calls, ∃ config : Config R,
        p = ⟨0, a.NewIncusProvider config true⟩ ∧
        (remote ≠ [] → config.DefaultRemote = remote) ∧
        (remote = [] → config = a.DefaultConfig)) ∧
      ((effectsOf (runCalls calls (Memory.start P))).filter Effect.isNewIncusProvider).length
        = 1 ∧
      (remote ≠ [] → (effectsOf (runCalls calls (Memory.start P))).filter Effect.isLoadConfig
        = [.loadConfig []]) ∧
      (remote = [] → (effectsOf (runCalls calls (Memory.start P))).filter Effect.isLoadConfig
        = []) := by
  cases calls with
  | nil => simp at hN
  | cons a rest =>
    have ha : a.Getenv (ascii "INCUS_REMOTE") = remote := henv a (List.mem_cons_self _ _)
    by_cases hremote : remote = []
    · have hfirst := testProvider_start_default a (ha.trans hremote)
      obtain ⟨hall, hkinds⟩ := runCalls_after_first a rest (Memory.start P) _ 1
        [.getenv (ascii "INCUS_REMOTE"), .defaultConfig, .newIncusProvider true] hfirst
      refine ⟨_, runCalls_length _ _, hall,
        ⟨a, List.mem_cons_self _ _, a.DefaultConfig, rfl, fun h => absurd hremote h, fun _ => rfl⟩,
        ?_, fun h => absurd hremote h, fun _ => ?_⟩
      · rw [hkinds Effect.isNewIncusProvider rfl rfl]; rfl
      · rw [hkinds Effect.isLoadConfig rfl rfl]; rfl
    · obtain ⟨base, hbase⟩ := hload hremote a (List.mem_cons_self _ _)
      have hfirst := testProvider_start_loaded a base (by rw [ha]; exact hremote) hbase
      obtain ⟨hall, hkinds⟩ := runCalls_after_first a rest (Memory.start P) _ 1
        [.getenv (ascii "INCUS_REMOTE"), .loadConfig [], .newIncusProvider true] hfirst
      refine ⟨_, runCalls_length _ _, hall,
        ⟨a, List.mem_cons_self _ _,
          { base with DefaultRemote := a.Getenv (ascii "INCUS_REMOTE") }, rfl,
          fun _ => ha, fun h => absurd h hremote⟩,
        ?_, fun _ => ?_, fun h => absurd h hremote⟩
      · rw [hkinds Effect.isNewIncusProvider rfl rfl]; rfl
      · rw [hkinds Effect.isLoadConfig rfl rfl]; rfl

/-- C17 at three calls with `INCUS_REMOTE=other` and a configuration file that can be
read: all three return the pointer at address `0` to the loaded configuration with the
default remote `other`, and the loader is called once. -/
theorem testProvider_concurrent_first_calls_witness :
    (∀ o ∈ runCalls [exampleAmbient (ascii "other") false, exampleAmbient (ascii "other") false,
        exampleAmbient (ascii "other") false] (Memory.start _),
      o.completion = .returned ⟨0, (⟨ascii "other", ()⟩, true)⟩) ∧
    ∃ p : Ptr (Config Unit × Bool),
      (runCalls [exampleAmbient (ascii "other") false, exampleAmbient (ascii "other") false,
        exampleAmbient (ascii "other") false] (Memory.start _)).length = 3 ∧
      (∀ o ∈ runCalls [exampleAmbient (ascii "other") false, exampleAmbient (ascii "other") false,
          exampleAmbient (ascii "other") false] (Memory.start _),
        o.completion = .returned p ∧ o.memory.testProviderConfig = some p ∧
        o.memory.testProviderMutex = false ∧
        ∃ inner, o.effects = .lock :: (inner ++ [.unlock])) ∧
      (∃ a ∈ [exampleAmbient (ascii "other") false, exampleAmbient (ascii "other") false,
          exampleAmbient (ascii "other") false], ∃ config : Config Unit,
        p = ⟨0, a.NewIncusProvider config true⟩ ∧
        (ascii "other" ≠ [] → config.DefaultRemote = ascii "other") ∧
        (ascii "other" = [] → config = a.DefaultConfig)) ∧
      ((effectsOf (runCalls [exampleAmbient (ascii "other") false,
          exampleAmbient (ascii "other") false, exampleAmbient (ascii "other") false]
          (Memory.start _))).filter Effect.isNewIncusProvider).length = 1 ∧
      (ascii "other" ≠ [] → (effectsOf (runCalls [exampleAmbient (ascii "other") false,
          exampleAmbient (ascii "other") false, exampleAmbient (ascii "other") false]
          (Memory.start _))).filter Effect.isLoadConfig = [.loadConfig []]) ∧
      (ascii "other" = [] → (effectsOf (runCalls [exampleAmbient (ascii "other") false,
          exampleAmbient (ascii "other") false, exampleAmbient (ascii "other") false]
          (Memory.start _))).filter Effect.isLoadConfig = []) :=
  ⟨by
    intro o ho
    simp only [runCalls, List.mem_cons, List.mem_nil_iff, or_false] at ho
    rcases ho with h | h | h <;> rw [h] <;> rfl,
   testProvider_concurrent_first_calls
    [exampleAmbient (ascii "other") false, exampleAmbient (ascii "other") false,
      exampleAmbient (ascii "other") false] (ascii "other") (by decide)
    (by
      intro a ha
      simp only [List.mem_cons, List.mem_nil_iff, or_false] at ha
      rcases ha with h | h | h <;> rw [h] <;> rfl)
    (by
      intro _ a ha
      simp only [List.mem_cons, List.mem_nil_iff, or_false] at ha
      rcases ha with h | h | h <;> rw [h] <;> exact ⟨⟨ascii "local", ()⟩, rfl⟩)⟩

end Incus
